import Mathlib

set_option linter.unusedVariables false

/-!
A verification development for the operator dispatch registry implemented in
`aten/src/ATen/core/dispatch/Dispatcher.cpp`.  The registry itself (registration,
deregistration, lookup, fallback management, listener notification) is embedded
shallowly; collaborator types that live outside that file (schemas, kernels, the
backend-tag bitset, the per-operator kernel store) are modelled from their
interface contracts in the design document.

Listener callbacks are modelled as an explicit list of `Notification` values
returned by each operation; each notification records which listener was called
and what that callback could observe about the registry at the moment of the
call (whether the operator was findable and whether it had a schema attached).
Errors thrown with `TORCH_CHECK` are caller-visible failures; `TORCH_INTERNAL_ASSERT`
failures are modelled as the distinguished `DispatchError.internalAssert`.
Every operation returns the registry state as it is at the throw point, which
models a C++ exception leaving already-performed mutations in place.
-/

namespace c10

/-- Operator identity: base name plus overload discriminator (the `OperatorName`
value type used as the lookup key throughout `Dispatcher.cpp`). -/
structure OperatorName where
  name : String
  overload_name : String
deriving DecidableEq, Repr

/-- Modelled from the spec: the alias-analysis kind universe of the schema
collaborator (§6: an "alias-analysis-kind value with a distinguished
default/unspecified marker").  `CONSERVATIVE` is the kind that the default
marker resolves to when the total accessor is queried. -/
inductive AliasAnalysisKind where
  | INTERNAL_SPECIAL_CASE
  | CONSERVATIVE
  | FROM_SCHEMA
  | PURE_FUNCTION
deriving DecidableEq, Repr

/-- Modelled from the spec: the `FunctionSchema` collaborator (§6): structural
content supporting structural equality, plus an optional alias-analysis kind in
which `none` is the distinguished default/unspecified marker. -/
structure FunctionSchema where
  op_name : OperatorName
  signature : String
  aliasKind : Option AliasAnalysisKind
deriving DecidableEq, Repr

/-- `FunctionSchema::operator_name()`. -/
def FunctionSchema.operator_name (s : FunctionSchema) : OperatorName :=
  s.op_name

/-- Modelled from the spec: `isDefaultAliasAnalysisKind()` — the schema carries
the default/unspecified marker. -/
def FunctionSchema.isDefaultAliasAnalysisKind (s : FunctionSchema) : Bool :=
  s.aliasKind.isNone

/-- Modelled from the spec: `aliasAnalysis()` — a total accessor (the source
calls it on schemas that carry the default marker); the default marker resolves
to the fixed default kind. -/
def FunctionSchema.aliasAnalysis (s : FunctionSchema) : AliasAnalysisKind :=
  s.aliasKind.getD AliasAnalysisKind.CONSERVATIVE

/-- Modelled from the spec: structural schema equality (`operator==` in
`checkSchemaCompatibility`, §6 "must support structural equality").  The
alias-analysis kind is compared by the separate branches of
`checkSchemaCompatibility`, so it is not part of structural equality. -/
def FunctionSchema.structEq (a b : FunctionSchema) : Bool :=
  decide (a.op_name = b.op_name) && decide (a.signature = b.signature)

/-- Backend tags.  Modelled from the spec (§6: "a fixed, enumerable,
bitset-representable universe of tags"): a small fixed universe with
`Undefined` first, mirroring the numbering that `Dispatcher::checkInvariants`
iterates over (its loop starts at index 1, skipping `Undefined`). -/
inductive DispatchKey where
  | Undefined
  | CPU
  | CUDA
  | Autograd
  | BackendSelect
deriving DecidableEq, Repr

/-- All dispatch keys in numbering order. -/
def DispatchKey.all : List DispatchKey :=
  [DispatchKey.Undefined, DispatchKey.CPU, DispatchKey.CUDA,
   DispatchKey.Autograd, DispatchKey.BackendSelect]

/-- The keys with index 1 .. NumDispatchKeys-1: the range of
`Dispatcher::checkInvariants`' loop, which skips `Undefined`. -/
def nonUndefinedKeys : List DispatchKey :=
  [DispatchKey.CPU, DispatchKey.CUDA, DispatchKey.Autograd, DispatchKey.BackendSelect]

/-- Modelled from the spec: `DispatchKeySet::has`. The bitset is modelled as a
list with set-membership semantics. -/
def keySetHas (s : List DispatchKey) (k : DispatchKey) : Bool :=
  decide (k ∈ s)

/-- Modelled from the spec: `DispatchKeySet::add` (idempotent). -/
def keySetAdd (s : List DispatchKey) (k : DispatchKey) : List DispatchKey :=
  if k ∈ s then s else s ++ [k]

/-- Modelled from the spec: `DispatchKeySet::remove`. -/
def keySetRemove (s : List DispatchKey) (k : DispatchKey) : List DispatchKey :=
  s.filter (fun x => decide (¬ x = k))

/-- Modelled from the spec: `DispatchKeySet::FULL` — every tag is present. -/
def keySetFull : List DispatchKey :=
  DispatchKey.all

/-- Modelled from the spec: the `KernelFunction` collaborator (§6): "an opaque
callable plus a boolean 'is trivial pass-through' flag".  The callable being
opaque, it is identified by a tag. -/
structure KernelFunction where
  id : Nat
  fallthrough_flag : Bool
deriving DecidableEq, Repr

/-- `KernelFunction::isFallthrough()`. -/
def KernelFunction.isFallthrough (k : KernelFunction) : Bool :=
  k.fallthrough_flag

/-- Result type of `impl::KernelFunctionTable::setKernel`; the first constant
is named in `Dispatcher.cpp` line 227, the second in the same enum. -/
inductive SetKernelResult where
  | ADDED_NEW_KERNEL
  | OVERWROTE_EXISTING_KERNEL
deriving DecidableEq, Repr

/-- Result type of `impl::KernelFunctionTable::removeKernelIfExists`; the first
constant is named in `Dispatcher.cpp` line 240. -/
inductive RemoveKernelIfExistsResult where
  | REMOVED_KERNEL
  | KERNEL_NOT_REGISTERED
deriving DecidableEq, Repr

/-- Lookup in the fallback table (an association list key → kernel with at most
one entry per key, the spec's "mapping<BackendTag, optional<Kernel>>"). -/
def fallbackLookup (t : List (DispatchKey × KernelFunction)) (k : DispatchKey) :
    Option KernelFunction :=
  (t.find? (fun kv => decide (kv.1 = k))).map (fun kv => kv.2)

/-- Modelled from the spec: `impl::KernelFunctionTable::setKernel`, which is not
part of `Dispatcher.cpp`.  It reports `ADDED_NEW_KERNEL` exactly when no kernel
was registered for the key.  Per the spec's contract that a duplicate fallback
is "enforced, not silently replaced" (§4.1) and that a rejected registration
leaves the tables exactly as before (§7), a duplicate reports a non-`ADDED`
result (named after the other constant of the source enum) and leaves the
stored kernel unchanged. -/
def setKernel (t : List (DispatchKey × KernelFunction)) (k : DispatchKey)
    (kern : KernelFunction) :
    SetKernelResult × List (DispatchKey × KernelFunction) :=
  match fallbackLookup t k with
  | some _ => (SetKernelResult.OVERWROTE_EXISTING_KERNEL, t)
  | none => (SetKernelResult.ADDED_NEW_KERNEL, t ++ [(k, kern)])

/-- Modelled from the spec: `impl::KernelFunctionTable::removeKernelIfExists`. -/
def removeKernelIfExists (t : List (DispatchKey × KernelFunction)) (k : DispatchKey) :
    RemoveKernelIfExistsResult × List (DispatchKey × KernelFunction) :=
  match fallbackLookup t k with
  | some _ =>
      (RemoveKernelIfExistsResult.REMOVED_KERNEL, t.filter (fun kv => decide (¬ kv.1 = k)))
  | none => (RemoveKernelIfExistsResult.KERNEL_NOT_REGISTERED, t)

/-- One kernel registration inside an operator entry: dispatch key (`none` is
the catch-all slot), a handle identifying this registration (modelling the C++
list-iterator handle returned by `OperatorEntry::registerKernel`), the kernel,
and the debug label.  Modelled from the spec (§3: "kernels:
mapping<BackendTag, ordered sequence of KernelRegistration> plus one catch-all
entry"), flattened into one ordered sequence tagged by key. -/
structure KernelRegistration where
  key : Option DispatchKey
  handle : Nat
  kernel : KernelFunction
  debug : String
deriving DecidableEq, Repr

/-- `Dispatcher::OperatorDef`: the per-operator element of `operators_` — an
`impl::OperatorEntry` (name, optional schema, kernel store) together with the
two reference counters. -/
structure OperatorDef where
  name : OperatorName
  schema : Option FunctionSchema
  kernels : List KernelRegistration
  nextHandle : Nat
  def_count : Nat
  def_and_impl_count : Nat
deriving DecidableEq, Repr

/-- The registry state: the owning collection `operators_`, the name lookup
index `operatorLookupTable_`, the fallback table `backendFallbackKernels_`, the
bitset `backendsWithoutFallthrough_`, and the listener list (listeners are
identified by the order in which they were added). -/
structure Dispatcher where
  operators : List OperatorDef
  operatorLookupTable : List OperatorName
  backendFallbackKernels : List (DispatchKey × KernelFunction)
  backendsWithoutFallthrough : List DispatchKey
  listeners : List Nat
  nextListenerId : Nat
deriving DecidableEq, Repr

/-- `Dispatcher::Dispatcher()`: empty registry with
`backendsWithoutFallthrough_(DispatchKeySet::FULL)`. -/
def Dispatcher.empty : Dispatcher :=
  { operators := [], operatorLookupTable := [], backendFallbackKernels := [],
    backendsWithoutFallthrough := keySetFull, listeners := [], nextListenerId := 0 }

/-- Error taxonomy.  The first three are thrown with `TORCH_CHECK`
(caller-visible); `internalAssert` models `TORCH_INTERNAL_ASSERT`. -/
inductive DispatchError where
  | schemaConflict
  | aliasConflict
  | duplicateFallback
  | internalAssert
deriving DecidableEq, Repr

/-- A caller-visible failure (`TORCH_CHECK`), as opposed to an internal
invariant violation. -/
def DispatchError.callerVisible : DispatchError → Bool
  | DispatchError.internalAssert => false
  | _ => true

/-- A registration token (`RegistrationHandleRAII`): the data captured by the
deregistration closure of each registration kind. -/
inductive Token where
  | defTok (op_name : OperatorName)
  | implTok (op_name : OperatorName) (key : Option DispatchKey) (handle : Nat)
  | fbTok (key : DispatchKey)
deriving DecidableEq, Repr

/-- One synchronous listener callback: which listener was invoked, whether it
was `onOperatorRegistered` (`registered = true`) or `onOperatorDeregistered`,
for which operator, and what the callback could observe through the registry at
the moment of the call. -/
structure Notification where
  listener : Nat
  registered : Bool
  opName : OperatorName
  sawSchema : Bool
  sawFindable : Bool
deriving DecidableEq, Repr

/-- `Dispatcher::findOperatorByName` (Dispatcher.cpp:46-54): pure read of the
lookup index; the handle is the operator's identity. -/
def Dispatcher.findOperatorByName (d : Dispatcher) (n : OperatorName) :
    Option OperatorName :=
  if n ∈ d.operatorLookupTable then some n else none

/-- The operator entry a handle for `n` dereferences to (the C++ handle is an
iterator into `operators_`). -/
def Dispatcher.entryFor (d : Dispatcher) (n : OperatorName) : Option OperatorDef :=
  d.operators.find? (fun e => decide (e.name = n))

/-- `OperatorHandle::hasSchema()` as reachable through a handle for `n`. -/
def Dispatcher.hasSchema (d : Dispatcher) (n : OperatorName) : Bool :=
  match d.entryFor n with
  | some e => e.schema.isSome
  | none => false

/-- `Dispatcher::findSchema` (Dispatcher.cpp:56-67): a handle only if the
operator exists and has a schema attached. -/
def Dispatcher.findSchema (d : Dispatcher) (n : OperatorName) : Option OperatorName :=
  match d.findOperatorByName n with
  | some h => if d.hasSchema h then some h else none
  | none => none

/-- Apply `f` to the entry named `n`, leave other entries alone. -/
def updEntry (n : OperatorName) (f : OperatorDef → OperatorDef) (e : OperatorDef) :
    OperatorDef :=
  if e.name = n then f e else e

/-- In-place mutation through an operator handle: the C++ code writes through
`op.operatorIterator_`; in the model the entry named `n` is rewritten. -/
def Dispatcher.updateEntry (d : Dispatcher) (n : OperatorName)
    (f : OperatorDef → OperatorDef) : Dispatcher :=
  { d with operators := d.operators.map (updEntry n f) }

/-- A freshly constructed operator entry (`operators_.emplace_back(op_name)`):
no schema, no kernels, both counters zero. -/
def freshEntry (n : OperatorName) : OperatorDef :=
  { name := n, schema := none, kernels := [], nextHandle := 0,
    def_count := 0, def_and_impl_count := 0 }

/-- `Dispatcher::findOrRegisterName_` (Dispatcher.cpp:87-100): return the
existing handle, or append a fresh entry to `operators_` and publish it in the
lookup index. -/
def Dispatcher.findOrRegisterName_ (d : Dispatcher) (n : OperatorName) :
    OperatorName × Dispatcher :=
  match d.findOperatorByName n with
  | some h => (h, d)
  | none =>
      (n, { d with operators := d.operators ++ [freshEntry n],
                   operatorLookupTable := d.operatorLookupTable ++ [n] })

/-- The observation a synchronously invoked listener callback makes on the
registry state `st` current at the moment of the call. -/
def mkNotif (l : Nat) (reg : Bool) (n : OperatorName) (st : Dispatcher) : Notification :=
  { listener := l, registered := reg, opName := n,
    sawSchema := st.hasSchema n, sawFindable := (st.findOperatorByName n).isSome }

/-- `Dispatcher::checkSchemaCompatibility` (Dispatcher.cpp:127-155): structural
equality first, then the asymmetric alias-analysis rule, with the three
branches of the source in order: a new schema carrying the default marker is
accepted; otherwise the two alias-analysis values must agree (the source
performs the same equality check in both remaining branches, so a non-default
kind registered after a default one is rejected unless it coincides with the
value the default resolves to — "This was previously permitted, but is now not
allowed"). -/
def checkSchemaCompatibility (existing schema : FunctionSchema) :
    Option DispatchError :=
  if existing.structEq schema = false then some DispatchError.schemaConflict
  else if schema.isDefaultAliasAnalysisKind then none
  else if existing.isDefaultAliasAnalysisKind then
    (if existing.aliasAnalysis = schema.aliasAnalysis then none
     else some DispatchError.aliasConflict)
  else
    (if existing.aliasAnalysis = schema.aliasAnalysis then none
     else some DispatchError.aliasConflict)

/-- `Dispatcher::registerDef` (Dispatcher.cpp:103-125).  Returns the listener
notifications fired, the registration token, and the post-call state.  If the
entry has no live definition the schema is attached (`registerSchema`) and
`onOperatorRegistered` fires; otherwise `checkSchemaCompatibility` runs.  The
counters are incremented only after all checks pass. -/
def Dispatcher.registerDef (d : Dispatcher) (schema : FunctionSchema) :
    Except DispatchError (List Notification × Token) × Dispatcher :=
  let op_name := schema.operator_name
  match d.findOrRegisterName_ op_name with
  | (h, d1) =>
    match d1.entryFor h with
    | none => (Except.error DispatchError.internalAssert, d1)
    | some e =>
      if e.def_count = 0 then
        let d2 := d1.updateEntry h (fun x => { x with schema := some schema })
        let evs := d2.listeners.map (fun l => mkNotif l true h d2)
        let d3 := d2.updateEntry h (fun x =>
          { x with def_count := x.def_count + 1,
                   def_and_impl_count := x.def_and_impl_count + 1 })
        (Except.ok (evs, Token.defTok op_name), d3)
      else
        match e.schema with
        | none => (Except.error DispatchError.internalAssert, d1)
        | some existing =>
          match checkSchemaCompatibility existing schema with
          | some err => (Except.error err, d1)
          | none =>
            let d3 := d1.updateEntry h (fun x =>
              { x with def_count := x.def_count + 1,
                       def_and_impl_count := x.def_and_impl_count + 1 })
            (Except.ok ([], Token.defTok op_name), d3)

/-- `Dispatcher::cleanup` (Dispatcher.cpp:214-223): if `def_and_impl_count` is
zero, assert the entry carries no lingering obligations
(`OperatorEntry::prepareForDeregistration`, modelled from the spec §4.3: "no
schema, no kernels") and erase the entry from both the owning collection and
the lookup index. -/
def Dispatcher.cleanup (d : Dispatcher) (op_name : OperatorName) :
    Except DispatchError Unit × Dispatcher :=
  match d.entryFor op_name with
  | none => (Except.error DispatchError.internalAssert, d)
  | some e =>
    if e.def_and_impl_count = 0 then
      if e.schema.isSome || decide (¬ e.kernels = []) then
        (Except.error DispatchError.internalAssert, d)
      else
        (Except.ok (),
         { d with
             operators := d.operators.filter (fun x => decide (¬ x.name = op_name)),
             operatorLookupTable :=
               d.operatorLookupTable.filter (fun x => decide (¬ x = op_name)) })
    else (Except.ok (), d)

/-- `Dispatcher::deregisterDef_` (Dispatcher.cpp:157-178): assert the token
matches, decrement both counters, and when `def_count` hits zero fire
`onOperatorDeregistered` to every listener *before* removing the schema, then
run `cleanup`.  Returns the notifications fired (with what each callback
observed) and the post state. -/
def Dispatcher.deregisterDef_ (d : Dispatcher) (op_name : OperatorName) :
    Except DispatchError (List Notification) × Dispatcher :=
  match d.entryFor op_name with
  | none => (Except.error DispatchError.internalAssert, d)
  | some e =>
    match e.schema with
    | none => (Except.error DispatchError.internalAssert, d)
    | some s =>
      if s.operator_name = op_name then
        if 0 < e.def_count ∧ 0 < e.def_and_impl_count then
          let d1 := d.updateEntry op_name (fun x =>
            { x with def_count := x.def_count - 1,
                     def_and_impl_count := x.def_and_impl_count - 1 })
          if e.def_count - 1 = 0 then
            let evs := d1.listeners.map (fun l => mkNotif l false op_name d1)
            let d2 := d1.updateEntry op_name (fun x => { x with schema := none })
            match d2.cleanup op_name with
            | (r, d3) => (Except.map (fun _ => evs) r, d3)
          else
            match d1.cleanup op_name with
            | (r, d3) => (Except.map (fun _ => ([] : List Notification)) r, d3)
        else (Except.error DispatchError.internalAssert, d)
      else (Except.error DispatchError.internalAssert, d)

/-- `Dispatcher::registerImpl` (Dispatcher.cpp:180-198).
`OperatorEntry::registerKernel` is modelled from the spec (§4.1): append the
kernel under the given tag (or the catch-all slot), handing back a handle that
locates it; no schema compatibility check happens here.  Only
`def_and_impl_count` is incremented.  The (empty) notification list is returned
so the frame property can be stated. -/
def Dispatcher.registerImpl (d : Dispatcher) (op_name : OperatorName)
    (dispatch_key : Option DispatchKey) (kernel : KernelFunction)
    (inferred_function_schema : Option FunctionSchema) (debug : String) :
    (List Notification × Token) × Dispatcher :=
  match d.findOrRegisterName_ op_name with
  | (h, d1) =>
    let kid := ((d1.entryFor h).getD (freshEntry h)).nextHandle
    let d2 := d1.updateEntry h (fun x =>
      { x with
          kernels := x.kernels ++
            [{ key := dispatch_key, handle := kid, kernel := kernel, debug := debug }],
          nextHandle := kid + 1,
          def_and_impl_count := x.def_and_impl_count + 1 })
    (([], Token.implTok op_name dispatch_key kid), d2)

/-- The selection `OperatorEntry::deregisterKernel_` uses: keep every kernel
registration other than the one the (key, handle) pair locates. -/
def keepsOther (dispatch_key : Option DispatchKey) (handle : Nat)
    (kr : KernelRegistration) : Bool :=
  decide (¬ (kr.key = dispatch_key ∧ kr.handle = handle))

/-- `Dispatcher::deregisterImpl_` (Dispatcher.cpp:200-211):
`OperatorEntry::deregisterKernel_` (modelled from the spec §4.2: remove the
specific kernel registration the handle locates) runs first, then the counter
assertion and decrement, then `cleanup`.  The (empty) notification list is
returned for the frame property. -/
def Dispatcher.deregisterImpl_ (d : Dispatcher) (op_name : OperatorName)
    (dispatch_key : Option DispatchKey) (handle : Nat) :
    Except DispatchError (List Notification) × Dispatcher :=
  match d.entryFor op_name with
  | none => (Except.error DispatchError.internalAssert, d)
  | some e =>
    let d1 := d.updateEntry op_name
      (fun x => { x with kernels := x.kernels.filter (keepsOther dispatch_key handle) })
    if 0 < e.def_and_impl_count then
      let d2 := d1.updateEntry op_name (fun x =>
        { x with def_and_impl_count := x.def_and_impl_count - 1 })
      match d2.cleanup op_name with
      | (r, d3) => (Except.map (fun _ => ([] : List Notification)) r, d3)
    else (Except.error DispatchError.internalAssert, d1)

/-- `Dispatcher::registerFallback` (Dispatcher.cpp:225-235): install through
`setKernel`, fail if a fallback was already registered for the key, and on
success remove the key from `backendsWithoutFallthrough_` when the kernel is a
trivial pass-through. -/
def Dispatcher.registerFallback (d : Dispatcher) (dispatchKey : DispatchKey)
    (kernel : KernelFunction) :
    Except DispatchError Token × Dispatcher :=
  match setKernel d.backendFallbackKernels dispatchKey kernel with
  | (inserted, table1) =>
    let d1 := { d with backendFallbackKernels := table1 }
    if inserted = SetKernelResult.ADDED_NEW_KERNEL then
      let d2 :=
        if kernel.isFallthrough then
          { d1 with backendsWithoutFallthrough :=
              keySetRemove d1.backendsWithoutFallthrough dispatchKey }
        else d1
      (Except.ok (Token.fbTok dispatchKey), d2)
    else (Except.error DispatchError.duplicateFallback, d1)

/-- `Dispatcher::deregisterFallback_` (Dispatcher.cpp:237-241): remove the
kernel, re-add the key to `backendsWithoutFallthrough_`, then assert a kernel
was actually removed. -/
def Dispatcher.deregisterFallback_ (d : Dispatcher) (dispatchKey : DispatchKey) :
    Except DispatchError Unit × Dispatcher :=
  match removeKernelIfExists d.backendFallbackKernels dispatchKey with
  | (result, table1) =>
    let d1 := { d with
        backendFallbackKernels := table1,
        backendsWithoutFallthrough := keySetAdd d.backendsWithoutFallthrough dispatchKey }
    if result = RemoveKernelIfExistsResult.REMOVED_KERNEL then (Except.ok (), d1)
    else (Except.error DispatchError.internalAssert, d1)

/-- `Dispatcher::addRegistrationListener` (Dispatcher.cpp:244-254): replay
`onOperatorRegistered` to the new listener for every entry with
`def_count > 0`, in registry iteration order, and only then append the listener
to the active list.  Returns the replayed notifications and the new listener's
identity. -/
def Dispatcher.addRegistrationListener (d : Dispatcher) :
    (List Notification × Nat) × Dispatcher :=
  let lid := d.nextListenerId
  let evs := (d.operators.filter (fun e => decide (0 < e.def_count))).map
    (fun e => mkNotif lid true e.name d)
  ((evs, lid),
   { d with listeners := d.listeners ++ [lid], nextListenerId := lid + 1 })

/-- Modelled from the spec: `OperatorEntry::checkInvariants` is
collaborator-defined entry-internal consistency (§4.6: "every operator entry's
own internal consistency (collaborator-defined)"), out of scope here. -/
def OperatorDef.entryCheckInvariants (e : OperatorDef) : Bool :=
  true

/-- `Dispatcher::checkInvariants` (Dispatcher.cpp:272-284): every entry's own
check, and for every key from index 1 on (skipping `Undefined`) that is not in
`backendsWithoutFallthrough_`, the fallback table's kernel for that key is a
trivial pass-through. -/
def Dispatcher.checkInvariants (d : Dispatcher) : Bool :=
  d.operators.all OperatorDef.entryCheckInvariants &&
  nonUndefinedKeys.all (fun k =>
    if keySetHas d.backendsWithoutFallthrough k then true
    else
      match fallbackLookup d.backendFallbackKernels k with
      | some kern => kern.isFallthrough
      | none => false)

/-! ## Trace semantics

A `World` couples the registry with the multiset of live (not yet released)
registration tokens.  A step is any registration call (successful or failed),
the release of one live token (single-release discipline), or adding a
listener.  `ReachableW` is the set of states reachable from the freshly
constructed registry — the "balanced, single-release sequences" of the design
document. -/

/-- Registry state plus the live registration tokens. -/
structure World where
  d : Dispatcher
  live : List Token
deriving DecidableEq, Repr

/-- The freshly constructed registry with no outstanding tokens. -/
def World.empty : World :=
  { d := Dispatcher.empty, live := [] }

/-- Effect of a `registerDef` call on the world: a successful call hands its
token to the caller; a failed one hands out nothing. -/
def applyRegDef (w : World) (schema : FunctionSchema) : World :=
  match w.d.registerDef schema with
  | (Except.ok r, d1) => { d := d1, live := w.live ++ [r.2] }
  | (Except.error _, d1) => { d := d1, live := w.live }

/-- Effect of a `registerImpl` call on the world. -/
def applyRegImpl (w : World) (n : OperatorName) (k : Option DispatchKey)
    (kern : KernelFunction) (isch : Option FunctionSchema) (dbg : String) : World :=
  match w.d.registerImpl n k kern isch dbg with
  | (r, d1) => { d := d1, live := w.live ++ [r.2] }

/-- Effect of a `registerFallback` call on the world. -/
def applyRegFb (w : World) (k : DispatchKey) (kern : KernelFunction) : World :=
  match w.d.registerFallback k kern with
  | (Except.ok t, d1) => { d := d1, live := w.live ++ [t] }
  | (Except.error _, d1) => { d := d1, live := w.live }

/-- Effect of releasing one live token: run the deregistration closure the
token's `RegistrationHandleRAII` captured, and retire the token. -/
def applyRelease (w : World) (t : Token) : World :=
  match t with
  | Token.defTok n => { d := (w.d.deregisterDef_ n).2, live := w.live.erase t }
  | Token.implTok n k h => { d := (w.d.deregisterImpl_ n k h).2, live := w.live.erase t }
  | Token.fbTok k => { d := (w.d.deregisterFallback_ k).2, live := w.live.erase t }

/-- Effect of an `addRegistrationListener` call on the world. -/
def applyAddListener (w : World) : World :=
  { d := (w.d.addRegistrationListener).2, live := w.live }

/-- One mutating registry operation. -/
inductive WStep : World → World → Prop where
  | regDef (w : World) (schema : FunctionSchema) : WStep w (applyRegDef w schema)
  | regImpl (w : World) (n : OperatorName) (k : Option DispatchKey)
      (kern : KernelFunction) (isch : Option FunctionSchema) (dbg : String) :
      WStep w (applyRegImpl w n k kern isch dbg)
  | regFb (w : World) (k : DispatchKey) (kern : KernelFunction) :
      WStep w (applyRegFb w k kern)
  | release (w : World) (t : Token) (h : t ∈ w.live) : WStep w (applyRelease w t)
  | addL (w : World) : WStep w (applyAddListener w)

/-- Reachability by balanced, single-release operation sequences from the
freshly constructed registry. -/
def ReachableW (w : World) : Prop :=
  Relation.ReflTransGen WStep World.empty w

/-- Does this token belong to a `registerDef` registration for `n`? -/
def defFor (n : OperatorName) : Token → Bool
  | Token.defTok m => decide (m = n)
  | _ => false

/-- Does this token belong to a `registerImpl` registration for `n`? -/
def implFor (n : OperatorName) : Token → Bool
  | Token.implTok m _ _ => decide (m = n)
  | _ => false

/-- Does this token keep the operator `n` alive (either registration kind)? -/
def tokFor (n : OperatorName) (t : Token) : Bool :=
  defFor n t || implFor n t

/-- Number of live definition tokens for `n`. -/
def liveDefCount (w : World) (n : OperatorName) : Nat :=
  (w.live.filter (defFor n)).length

/-- Number of live kernel-implementation tokens for `n`. -/
def liveImplCount (w : World) (n : OperatorName) : Nat :=
  (w.live.filter (implFor n)).length

/-! ## Basic infrastructure lemmas -/

instance {ε α : Type} [DecidableEq ε] [DecidableEq α] : DecidableEq (Except ε α)
  | Except.error e, Except.error f => decidable_of_iff (e = f) (by simp)
  | Except.error e, Except.ok a => isFalse (by simp)
  | Except.ok a, Except.error e => isFalse (by simp)
  | Except.ok a, Except.ok b => decidable_of_iff (a = b) (by simp)

theorem find?_app_none {α : Type} (p : α → Bool) (l1 l2 : List α)
    (h : l1.find? p = none) : (l1 ++ l2).find? p = l2.find? p := by
  induction l1 with
  | nil => simp
  | cons a l ih =>
    simp only [List.cons_append, List.find?_cons] at h ⊢
    cases hp : p a with
    | true => simp [hp] at h
    | false =>
      simp only [hp] at h ⊢
      exact ih h

theorem find?_app_some {α : Type} (p : α → Bool) (l1 l2 : List α) (a : α)
    (h : l1.find? p = some a) : (l1 ++ l2).find? p = some a := by
  induction l1 with
  | nil => simp at h
  | cons b l ih =>
    simp only [List.cons_append, List.find?_cons] at h ⊢
    cases hp : p b with
    | true => simp [hp] at h ⊢; exact h
    | false =>
      simp only [hp] at h ⊢
      exact ih h

theorem find?_map_pres {α : Type} (f : α → α) (p : α → Bool)
    (hp : ∀ a, p (f a) = p a) (l : List α) :
    (l.map f).find? p = (l.find? p).map f := by
  induction l with
  | nil => simp
  | cons a l ih =>
    rw [List.map_cons, List.find?_cons, List.find?_cons, hp a]
    cases hpa : p a with
    | true => simp
    | false => simpa using ih

theorem find?_filter_imp {α : Type} (p q : α → Bool)
    (h : ∀ a, p a = true → q a = true) (l : List α) :
    (l.filter q).find? p = l.find? p := by
  induction l with
  | nil => simp
  | cons a l ih =>
    cases hq : q a with
    | true =>
      rw [List.filter_cons_of_pos hq, List.find?_cons, List.find?_cons]
      cases hp : p a with
      | true => rfl
      | false => exact ih
    | false =>
      rw [List.filter_cons_of_neg (by simp [hq]), List.find?_cons]
      cases hp : p a with
      | true => exact absurd (h a hp) (by simp [hq])
      | false => exact ih

theorem find?_of_mem_nodup {α β : Type} [DecidableEq β] (key : α → β) (l : List α)
    (hnd : (l.map key).Nodup) (e : α) (he : e ∈ l) (n : β) (hk : key e = n) :
    l.find? (fun x => decide (key x = n)) = some e := by
  induction l with
  | nil => simp at he
  | cons a l ih =>
    rw [List.map_cons, List.nodup_cons] at hnd
    rw [List.find?_cons]
    rcases List.mem_cons.mp he with rfl | hmem
    · simp [hk]
    · cases hpa : (decide (key a = n) : Bool) with
      | true =>
        exfalso
        have : key a = n := of_decide_eq_true hpa
        exact hnd.1 (this ▸ hk ▸ List.mem_map_of_mem key hmem)
      | false => exact ih hnd.2 hmem

theorem filter_erase_not {α : Type} [DecidableEq α] (p : α → Bool) (t : α)
    (hp : p t = false) (l : List α) : (l.erase t).filter p = l.filter p := by
  induction l with
  | nil => simp
  | cons a l ih =>
    by_cases hat : a = t
    · subst hat
      rw [List.erase_cons_head, List.filter_cons_of_neg (by simp [hp])]
    · rw [List.erase_cons_tail (by simpa using hat)]
      cases hpa : p a with
      | true => rw [List.filter_cons_of_pos hpa, List.filter_cons_of_pos hpa, ih]
      | false => rw [List.filter_cons_of_neg (by simp [hpa]),
          List.filter_cons_of_neg (by simp [hpa]), ih]

theorem length_filter_erase {α : Type} [DecidableEq α] (p : α → Bool) (t : α)
    (hp : p t = true) (l : List α) (ht : t ∈ l) :
    ((l.erase t).filter p).length + 1 = (l.filter p).length := by
  induction l with
  | nil => simp at ht
  | cons a l ih =>
    by_cases hat : a = t
    · subst hat
      rw [List.erase_cons_head, List.filter_cons_of_pos hp, List.length_cons]
    · rw [List.erase_cons_tail (by simpa using hat)]
      have hmem : t ∈ l := by
        rcases List.mem_cons.mp ht with h | h
        · exact absurd h.symm hat
        · exact h
      cases hpa : p a with
      | true =>
        rw [List.filter_cons_of_pos hpa, List.filter_cons_of_pos hpa,
          List.length_cons, List.length_cons]
        have h2 := ih hmem
        omega
      | false =>
        rw [List.filter_cons_of_neg (by simp [hpa]), List.filter_cons_of_neg (by simp [hpa])]
        exact ih hmem

theorem filter_length_pos_iff {α : Type} (p : α → Bool) (l : List α) :
    0 < (l.filter p).length ↔ ∃ a ∈ l, p a = true := by
  rw [List.length_pos]
  constructor
  · intro h
    rcases List.exists_mem_of_ne_nil _ h with ⟨a, ha⟩
    exact ⟨a, (List.mem_filter.mp ha).1, (List.mem_filter.mp ha).2⟩
  · rintro ⟨a, hmem, hp⟩
    intro hnil
    exact absurd (hnil ▸ List.mem_filter.mpr ⟨hmem, hp⟩) (List.not_mem_nil a)

/-! ### Lemmas about the registry state primitives -/

theorem entryFor_mem {d : Dispatcher} {n : OperatorName} {e : OperatorDef}
    (h : d.entryFor n = some e) : e ∈ d.operators ∧ e.name = n := by
  unfold Dispatcher.entryFor at h
  refine ⟨List.mem_of_find?_eq_some h, ?_⟩
  have := List.find?_some h
  simpa using this

theorem entryFor_of_mem {d : Dispatcher} {n : OperatorName} {e : OperatorDef}
    (hnd : (d.operators.map (fun x => x.name)).Nodup)
    (he : e ∈ d.operators) (hn : e.name = n) : d.entryFor n = some e := by
  unfold Dispatcher.entryFor
  exact find?_of_mem_nodup (fun x => x.name) d.operators hnd e he n hn

theorem entryFor_eq_none_iff {d : Dispatcher} {n : OperatorName} :
    d.entryFor n = none ↔ ∀ e ∈ d.operators, ¬ e.name = n := by
  unfold Dispatcher.entryFor
  rw [List.find?_eq_none]
  constructor
  · intro h e he hn
    exact absurd (decide_eq_true hn) (by simpa using h e he)
  · intro h e he
    simpa using h e he

theorem entryFor_isSome_iff {d : Dispatcher} {n : OperatorName} :
    (d.entryFor n).isSome = true ↔ ∃ e ∈ d.operators, e.name = n := by
  cases h : d.entryFor n with
  | none =>
    simp only [Option.isSome_none]
    constructor
    · intro hc
      exact absurd hc (by simp)
    · rintro ⟨e, he, hn⟩
      exact absurd hn (entryFor_eq_none_iff.mp h e he)
  | some e =>
    constructor
    · intro _
      exact ⟨e, (entryFor_mem h).1, (entryFor_mem h).2⟩
    · intro _
      rfl

theorem updEntry_name {n : OperatorName} {f : OperatorDef → OperatorDef}
    (hf : ∀ e, (f e).name = e.name) (e : OperatorDef) :
    (updEntry n f e).name = e.name := by
  unfold updEntry
  split
  · exact hf e
  · rfl

theorem updEntry_of_ne {n : OperatorName} {f : OperatorDef → OperatorDef}
    {e : OperatorDef} (h : ¬ e.name = n) : updEntry n f e = e := by
  unfold updEntry
  exact if_neg h

theorem updEntry_of_eq {n : OperatorName} {f : OperatorDef → OperatorDef}
    {e : OperatorDef} (h : e.name = n) : updEntry n f e = f e := by
  unfold updEntry
  exact if_pos h

theorem updateEntry_names {d : Dispatcher} {n : OperatorName}
    {f : OperatorDef → OperatorDef} (hf : ∀ e, (f e).name = e.name) :
    (d.updateEntry n f).operators.map (fun x => x.name)
      = d.operators.map (fun x => x.name) := by
  unfold Dispatcher.updateEntry
  simp only [List.map_map]
  exact List.map_congr_left (fun e _ => updEntry_name hf e)

theorem entryFor_updateEntry_self {d : Dispatcher} {n : OperatorName}
    {f : OperatorDef → OperatorDef} (hf : ∀ e, (f e).name = e.name) :
    (d.updateEntry n f).entryFor n = (d.entryFor n).map f := by
  show ((d.operators.map (updEntry n f)).find? (fun e => decide (e.name = n)))
    = (d.operators.find? (fun e => decide (e.name = n))).map f
  rw [find?_map_pres (updEntry n f) _ (fun a => by rw [updEntry_name hf])]
  cases hfind : d.operators.find? (fun e => decide (e.name = n)) with
  | none => rfl
  | some e =>
    have hn : e.name = n := by
      have := List.find?_some hfind
      simpa using this
    simp [updEntry_of_eq hn]

theorem entryFor_updateEntry_ne {d : Dispatcher} {n m : OperatorName}
    {f : OperatorDef → OperatorDef} (hf : ∀ e, (f e).name = e.name)
    (hne : ¬ m = n) : (d.updateEntry n f).entryFor m = d.entryFor m := by
  show ((d.operators.map (updEntry n f)).find? (fun e => decide (e.name = m)))
    = d.operators.find? (fun e => decide (e.name = m))
  rw [find?_map_pres (updEntry n f) _ (fun a => by rw [updEntry_name hf])]
  cases hfind : d.operators.find? (fun e => decide (e.name = m)) with
  | none => rfl
  | some e =>
    have hn : e.name = m := by
      have := List.find?_some hfind
      simpa using this
    simp [updEntry_of_ne (fun hc => hne (hn ▸ hc))]

theorem mem_updateEntry {d : Dispatcher} {n : OperatorName}
    {f : OperatorDef → OperatorDef} {x : OperatorDef}
    (hx : x ∈ (d.updateEntry n f).operators) :
    ∃ e ∈ d.operators, x = updEntry n f e := by
  rcases List.mem_map.mp hx with ⟨e, he, hfe⟩
  exact ⟨e, he, hfe.symm⟩

theorem map_updEntry_of_absent {ops : List OperatorDef} {n : OperatorName}
    {f : OperatorDef → OperatorDef} (h : ∀ e ∈ ops, ¬ e.name = n) :
    ops.map (updEntry n f) = ops := by
  induction ops with
  | nil => rfl
  | cons a l ih =>
    rw [List.map_cons, updEntry_of_ne (h a (List.mem_cons_self a l)),
      ih (fun e he => h e (List.mem_cons_of_mem a he))]

theorem filter_map_updEntry {ops : List OperatorDef} {n : OperatorName}
    {f : OperatorDef → OperatorDef} (hf : ∀ e, (f e).name = e.name) :
    (ops.map (updEntry n f)).filter (fun x => decide (¬ x.name = n))
      = ops.filter (fun x => decide (¬ x.name = n)) := by
  induction ops with
  | nil => rfl
  | cons a l ih =>
    rw [List.map_cons]
    by_cases han : a.name = n
    · rw [List.filter_cons_of_neg (by simp [updEntry_name hf, han]),
        List.filter_cons_of_neg (by simp [han]), ih]
    · rw [updEntry_of_ne han, List.filter_cons_of_pos (by simpa using han),
        List.filter_cons_of_pos (by simpa using han), ih]

theorem findOp_eq_some_iff {d : Dispatcher} {n : OperatorName} :
    d.findOperatorByName n = some n ↔ n ∈ d.operatorLookupTable := by
  unfold Dispatcher.findOperatorByName
  split
  · simp [*]
  · simp [*]

theorem findOp_eq_none_iff {d : Dispatcher} {n : OperatorName} :
    d.findOperatorByName n = none ↔ ¬ n ∈ d.operatorLookupTable := by
  unfold Dispatcher.findOperatorByName
  split
  · simp [*]
  · simp [*]

theorem findOp_isSome_iff {d : Dispatcher} {n : OperatorName} :
    (d.findOperatorByName n).isSome = true ↔ n ∈ d.operatorLookupTable := by
  unfold Dispatcher.findOperatorByName
  split
  · simp [*]
  · simp [*]

/-! ### Characterization equations for the operations -/

theorem findOrRegisterName_of_some {d : Dispatcher} {n : OperatorName}
    (hfo : d.findOperatorByName n = some n) : d.findOrRegisterName_ n = (n, d) := by
  unfold Dispatcher.findOrRegisterName_
  rw [hfo]

theorem findOrRegisterName_of_none {d : Dispatcher} {n : OperatorName}
    (hfo : d.findOperatorByName n = none) :
    d.findOrRegisterName_ n =
      (n, { d with operators := d.operators ++ [freshEntry n],
                   operatorLookupTable := d.operatorLookupTable ++ [n] }) := by
  unfold Dispatcher.findOrRegisterName_
  rw [hfo]

theorem map_upd_append_absent {ops : List OperatorDef} {x : OperatorDef}
    {n : OperatorName} {f : OperatorDef → OperatorDef}
    (h2 : ∀ e ∈ ops, ¬ e.name = n) (hx : x.name = n) :
    (ops ++ [x]).map (updEntry n f) = ops ++ [f x] := by
  rw [List.map_append, map_updEntry_of_absent h2, List.map_singleton, updEntry_of_eq hx]

theorem entryFor_append_self {d : Dispatcher} {n : OperatorName} {x : OperatorDef}
    (h2 : ∀ e ∈ d.operators, ¬ e.name = n) (hx : x.name = n) :
    (d.operators ++ [x]).find? (fun e => decide (e.name = n)) = some x := by
  have h0 : d.operators.find? (fun e => decide (e.name = n)) = none :=
    entryFor_eq_none_iff.mpr h2
  rw [find?_app_none _ _ _ h0]
  simp [hx]

theorem registerDef_new_eq (d : Dispatcher) (s : FunctionSchema)
    (h2 : ∀ e ∈ d.operators, ¬ e.name = s.op_name)
    (hfo : d.findOperatorByName s.op_name = none) :
    d.registerDef s =
      (Except.ok
        (d.listeners.map (fun l =>
          { listener := l, registered := true, opName := s.op_name,
            sawSchema := true, sawFindable := true }),
         Token.defTok s.op_name),
       { d with
           operators := d.operators ++
             [{ name := s.op_name, schema := some s, kernels := [], nextHandle := 0,
                def_count := 1, def_and_impl_count := 1 }],
           operatorLookupTable := d.operatorLookupTable ++ [s.op_name] }) := by
  have hford := findOrRegisterName_of_none hfo
  have hentA :
      ({ d with operators := d.operators ++ [freshEntry s.op_name],
                operatorLookupTable := d.operatorLookupTable ++ [s.op_name] } :
        Dispatcher).entryFor s.op_name = some (freshEntry s.op_name) :=
    entryFor_append_self h2 rfl
  unfold Dispatcher.registerDef
  rw [show s.operator_name = s.op_name from rfl]
  simp only [hford, hentA]
  rw [if_pos (show (freshEntry s.op_name).def_count = 0 from rfl)]
  simp only [Dispatcher.updateEntry, Dispatcher.hasSchema, Dispatcher.entryFor,
    Dispatcher.findOperatorByName, mkNotif]
  rw [map_upd_append_absent h2 rfl]
  rw [map_upd_append_absent h2 rfl]
  simp only [freshEntry]
  have h0 : List.find? (fun e => decide (e.name = s.op_name)) d.operators = none :=
    entryFor_eq_none_iff.mpr h2
  simp [List.mem_append, h0]

theorem registerDef_attach_eq (d : Dispatcher) (s : FunctionSchema) (e : OperatorDef)
    (hfo : d.findOperatorByName s.op_name = some s.op_name)
    (hent : d.entryFor s.op_name = some e) (hdc : e.def_count = 0) :
    d.registerDef s =
      (Except.ok
        (d.listeners.map (fun l =>
          { listener := l, registered := true, opName := s.op_name,
            sawSchema := true, sawFindable := true }),
         Token.defTok s.op_name),
       (d.updateEntry s.op_name (fun x => { x with schema := some s })).updateEntry
         s.op_name (fun x =>
           { x with def_count := x.def_count + 1,
                    def_and_impl_count := x.def_and_impl_count + 1 })) := by
  have hford := findOrRegisterName_of_some hfo
  have hmem : s.op_name ∈ d.operatorLookupTable := findOp_eq_some_iff.mp hfo
  have hent2 : (d.updateEntry s.op_name (fun x => { x with schema := some s })).entryFor
      s.op_name = some { e with schema := some s } := by
    rw [entryFor_updateEntry_self (f := fun x => { x with schema := some s })
      (fun x => rfl), hent]
    rfl
  unfold Dispatcher.registerDef
  rw [show s.operator_name = s.op_name from rfl]
  simp only [hford, hent]
  rw [if_pos hdc]
  simp only [mkNotif, Dispatcher.hasSchema, hent2]
  simp [Dispatcher.updateEntry, Dispatcher.findOperatorByName, hmem]

theorem registerDef_err_eq (d : Dispatcher) (s : FunctionSchema) (e : OperatorDef)
    (ex : FunctionSchema) (err : DispatchError)
    (hfo : d.findOperatorByName s.op_name = some s.op_name)
    (hent : d.entryFor s.op_name = some e) (hdc : ¬ e.def_count = 0)
    (hsch : e.schema = some ex) (hchk : checkSchemaCompatibility ex s = some err) :
    d.registerDef s = (Except.error err, d) := by
  have hford := findOrRegisterName_of_some hfo
  unfold Dispatcher.registerDef
  rw [show s.operator_name = s.op_name from rfl]
  simp only [hford, hent]
  rw [if_neg hdc]
  simp only [hsch, hchk]

theorem registerDef_inc_eq (d : Dispatcher) (s : FunctionSchema) (e : OperatorDef)
    (ex : FunctionSchema)
    (hfo : d.findOperatorByName s.op_name = some s.op_name)
    (hent : d.entryFor s.op_name = some e) (hdc : ¬ e.def_count = 0)
    (hsch : e.schema = some ex) (hchk : checkSchemaCompatibility ex s = none) :
    d.registerDef s =
      (Except.ok ([], Token.defTok s.op_name),
       d.updateEntry s.op_name (fun x =>
         { x with def_count := x.def_count + 1,
                  def_and_impl_count := x.def_and_impl_count + 1 })) := by
  have hford := findOrRegisterName_of_some hfo
  unfold Dispatcher.registerDef
  rw [show s.operator_name = s.op_name from rfl]
  simp only [hford, hent]
  rw [if_neg hdc]
  simp only [hsch, hchk]

theorem registerImpl_new_eq (d : Dispatcher) (n : OperatorName)
    (k : Option DispatchKey) (kern : KernelFunction) (isch : Option FunctionSchema)
    (dbg : String)
    (h2 : ∀ e ∈ d.operators, ¬ e.name = n)
    (hfo : d.findOperatorByName n = none) :
    d.registerImpl n k kern isch dbg =
      (([], Token.implTok n k 0),
       { d with
           operators := d.operators ++
             [{ name := n, schema := none,
                kernels := [{ key := k, handle := 0, kernel := kern, debug := dbg }],
                nextHandle := 1, def_count := 0, def_and_impl_count := 1 }],
           operatorLookupTable := d.operatorLookupTable ++ [n] }) := by
  have hford := findOrRegisterName_of_none hfo
  have hentA :
      ({ d with operators := d.operators ++ [freshEntry n],
                operatorLookupTable := d.operatorLookupTable ++ [n] } :
        Dispatcher).entryFor n = some (freshEntry n) :=
    entryFor_append_self h2 rfl
  unfold Dispatcher.registerImpl
  simp only [hford, hentA, Dispatcher.updateEntry]
  rw [map_upd_append_absent h2 rfl]
  simp [freshEntry]

theorem registerImpl_old_eq (d : Dispatcher) (n : OperatorName)
    (k : Option DispatchKey) (kern : KernelFunction) (isch : Option FunctionSchema)
    (dbg : String) (e : OperatorDef)
    (hfo : d.findOperatorByName n = some n)
    (hent : d.entryFor n = some e) :
    d.registerImpl n k kern isch dbg =
      (([], Token.implTok n k e.nextHandle),
       d.updateEntry n (fun x =>
         { x with
             kernels := x.kernels ++
               [{ key := k, handle := e.nextHandle, kernel := kern, debug := dbg }],
             nextHandle := e.nextHandle + 1,
             def_and_impl_count := x.def_and_impl_count + 1 })) := by
  have hford := findOrRegisterName_of_some hfo
  unfold Dispatcher.registerImpl
  simp only [hford, hent]
  rfl

theorem cleanup_keep_eq (d : Dispatcher) (n : OperatorName) (e : OperatorDef)
    (hent : d.entryFor n = some e) (hdai : ¬ e.def_and_impl_count = 0) :
    d.cleanup n = (Except.ok (), d) := by
  unfold Dispatcher.cleanup
  simp only [hent]
  rw [if_neg hdai]

theorem cleanup_erase_eq (d : Dispatcher) (n : OperatorName) (e : OperatorDef)
    (hent : d.entryFor n = some e) (hdai : e.def_and_impl_count = 0)
    (hs : e.schema = none) (hk : e.kernels = []) :
    d.cleanup n =
      (Except.ok (),
       { d with
           operators := d.operators.filter (fun x => decide (¬ x.name = n)),
           operatorLookupTable :=
             d.operatorLookupTable.filter (fun x => decide (¬ x = n)) }) := by
  unfold Dispatcher.cleanup
  simp only [hent]
  rw [if_pos hdai, if_neg (by simp [hs, hk])]

theorem deregisterDef_many_eq (d : Dispatcher) (n : OperatorName) (e : OperatorDef)
    (s : FunctionSchema)
    (hent : d.entryFor n = some e) (hsch : e.schema = some s) (hsn : s.op_name = n)
    (hpos : 0 < e.def_count ∧ 0 < e.def_and_impl_count)
    (hgt : ¬ e.def_count - 1 = 0) (hdai2 : ¬ e.def_and_impl_count - 1 = 0) :
    d.deregisterDef_ n =
      (Except.ok [],
       d.updateEntry n (fun x =>
         { x with def_count := x.def_count - 1,
                  def_and_impl_count := x.def_and_impl_count - 1 })) := by
  have hdec : (d.updateEntry n (fun x =>
      { x with def_count := x.def_count - 1,
               def_and_impl_count := x.def_and_impl_count - 1 })).entryFor n =
      some { e with def_count := e.def_count - 1,
                    def_and_impl_count := e.def_and_impl_count - 1 } := by
    rw [entryFor_updateEntry_self
      (f := fun x => { x with def_count := x.def_count - 1,
                              def_and_impl_count := x.def_and_impl_count - 1 })
      (fun x => rfl), hent]
    rfl
  unfold Dispatcher.deregisterDef_
  simp only [hent, hsch]
  rw [show s.operator_name = s.op_name from rfl, if_pos hsn, if_pos hpos, if_neg hgt,
    cleanup_keep_eq _ _ _ hdec (by simpa using hdai2)]
  rfl

theorem deregisterDef_zero_keep_eq (d : Dispatcher) (n : OperatorName) (e : OperatorDef)
    (s : FunctionSchema)
    (hent : d.entryFor n = some e) (hsch : e.schema = some s) (hsn : s.op_name = n)
    (hmem : n ∈ d.operatorLookupTable)
    (hpos : 0 < e.def_count ∧ 0 < e.def_and_impl_count)
    (h1 : e.def_count - 1 = 0) (hdai2 : ¬ e.def_and_impl_count - 1 = 0) :
    d.deregisterDef_ n =
      (Except.ok (d.listeners.map (fun l =>
        { listener := l, registered := false, opName := n,
          sawSchema := true, sawFindable := true })),
       (d.updateEntry n (fun x =>
         { x with def_count := x.def_count - 1,
                  def_and_impl_count := x.def_and_impl_count - 1 })).updateEntry n
         (fun x => { x with schema := none })) := by
  have hdec : (d.updateEntry n (fun x =>
      { x with def_count := x.def_count - 1,
               def_and_impl_count := x.def_and_impl_count - 1 })).entryFor n =
      some { e with def_count := e.def_count - 1,
                    def_and_impl_count := e.def_and_impl_count - 1 } := by
    rw [entryFor_updateEntry_self
      (f := fun x => { x with def_count := x.def_count - 1,
                              def_and_impl_count := x.def_and_impl_count - 1 })
      (fun x => rfl), hent]
    rfl
  have hdec2 : ((d.updateEntry n (fun x =>
      { x with def_count := x.def_count - 1,
               def_and_impl_count := x.def_and_impl_count - 1 })).updateEntry n
        (fun x => { x with schema := none })).entryFor n =
      some { e with schema := none, def_count := e.def_count - 1,
                    def_and_impl_count := e.def_and_impl_count - 1 } := by
    rw [entryFor_updateEntry_self (f := fun x => { x with schema := none })
      (fun x => rfl), hdec]
    rfl
  unfold Dispatcher.deregisterDef_
  simp only [hent, hsch]
  rw [show s.operator_name = s.op_name from rfl, if_pos hsn, if_pos hpos, if_pos h1,
    cleanup_keep_eq _ _ _ hdec2 (by simpa using hdai2)]
  simp only [mkNotif, Dispatcher.hasSchema, hdec]
  simp [Dispatcher.updateEntry, Dispatcher.findOperatorByName, hsch, hmem]
  rfl

theorem deregisterDef_zero_erase_eq (d : Dispatcher) (n : OperatorName) (e : OperatorDef)
    (s : FunctionSchema)
    (hent : d.entryFor n = some e) (hsch : e.schema = some s) (hsn : s.op_name = n)
    (hmem : n ∈ d.operatorLookupTable)
    (hpos : 0 < e.def_count ∧ 0 < e.def_and_impl_count)
    (h1 : e.def_count - 1 = 0) (hdai1 : e.def_and_impl_count - 1 = 0)
    (hker : e.kernels = []) :
    d.deregisterDef_ n =
      (Except.ok (d.listeners.map (fun l =>
        { listener := l, registered := false, opName := n,
          sawSchema := true, sawFindable := true })),
       { d with
           operators := d.operators.filter (fun x => decide (¬ x.name = n)),
           operatorLookupTable :=
             d.operatorLookupTable.filter (fun x => decide (¬ x = n)) }) := by
  have hdec : (d.updateEntry n (fun x =>
      { x with def_count := x.def_count - 1,
               def_and_impl_count := x.def_and_impl_count - 1 })).entryFor n =
      some { e with def_count := e.def_count - 1,
                    def_and_impl_count := e.def_and_impl_count - 1 } := by
    rw [entryFor_updateEntry_self
      (f := fun x => { x with def_count := x.def_count - 1,
                              def_and_impl_count := x.def_and_impl_count - 1 })
      (fun x => rfl), hent]
    rfl
  have hdec2 : ((d.updateEntry n (fun x =>
      { x with def_count := x.def_count - 1,
               def_and_impl_count := x.def_and_impl_count - 1 })).updateEntry n
        (fun x => { x with schema := none })).entryFor n =
      some { e with schema := none, def_count := e.def_count - 1,
                    def_and_impl_count := e.def_and_impl_count - 1 } := by
    rw [entryFor_updateEntry_self (f := fun x => { x with schema := none })
      (fun x => rfl), hdec]
    rfl
  unfold Dispatcher.deregisterDef_
  simp only [hent, hsch]
  rw [show s.operator_name = s.op_name from rfl, if_pos hsn, if_pos hpos, if_pos h1,
    cleanup_erase_eq _ _ _ hdec2 (by simpa using hdai1) rfl (by simpa using hker)]
  simp only [mkNotif, Dispatcher.hasSchema, hdec]
  simp only [Dispatcher.updateEntry]
  rw [filter_map_updEntry (f := fun x => { x with schema := none }) (fun x => rfl),
    filter_map_updEntry
      (f := fun x => { x with def_count := x.def_count - 1,
                              def_and_impl_count := x.def_and_impl_count - 1 })
      (fun x => rfl)]
  simp [Dispatcher.findOperatorByName, hsch, hmem]
  rfl

theorem deregisterImpl_keep_eq (d : Dispatcher) (n : OperatorName)
    (k : Option DispatchKey) (h : Nat) (e : OperatorDef)
    (hent : d.entryFor n = some e) (hdai : 0 < e.def_and_impl_count)
    (hdai2 : ¬ e.def_and_impl_count - 1 = 0) :
    d.deregisterImpl_ n k h =
      (Except.ok [],
       (d.updateEntry n
         (fun x => { x with kernels := x.kernels.filter (keepsOther k h) })).updateEntry n
         (fun x => { x with def_and_impl_count := x.def_and_impl_count - 1 })) := by
  have hfil : (d.updateEntry n
      (fun x => { x with kernels := x.kernels.filter (keepsOther k h) })).entryFor n =
      some { e with kernels := e.kernels.filter (keepsOther k h) } := by
    rw [entryFor_updateEntry_self
      (f := fun x => { x with kernels := x.kernels.filter (keepsOther k h) })
      (fun x => rfl), hent]
    rfl
  have hdec : ((d.updateEntry n
      (fun x => { x with kernels := x.kernels.filter (keepsOther k h) })).updateEntry n
        (fun x => { x with def_and_impl_count := x.def_and_impl_count - 1 })).entryFor n =
      some { e with
          kernels := e.kernels.filter (keepsOther k h),
          def_and_impl_count := e.def_and_impl_count - 1 } := by
    rw [entryFor_updateEntry_self
      (f := fun x => { x with def_and_impl_count := x.def_and_impl_count - 1 })
      (fun x => rfl), hfil]
    rfl
  unfold Dispatcher.deregisterImpl_
  simp only [hent]
  rw [if_pos hdai, cleanup_keep_eq _ _ _ hdec (by simpa using hdai2)]
  rfl

theorem deregisterImpl_erase_eq (d : Dispatcher) (n : OperatorName)
    (k : Option DispatchKey) (h : Nat) (e : OperatorDef)
    (hent : d.entryFor n = some e) (hdai : 0 < e.def_and_impl_count)
    (hdai1 : e.def_and_impl_count - 1 = 0) (hsch : e.schema = none)
    (hker : e.kernels.filter (keepsOther k h) = []) :
    d.deregisterImpl_ n k h =
      (Except.ok [],
       { d with
           operators := d.operators.filter (fun x => decide (¬ x.name = n)),
           operatorLookupTable :=
             d.operatorLookupTable.filter (fun x => decide (¬ x = n)) }) := by
  have hfil : (d.updateEntry n
      (fun x => { x with kernels := x.kernels.filter (keepsOther k h) })).entryFor n =
      some { e with kernels := e.kernels.filter (keepsOther k h) } := by
    rw [entryFor_updateEntry_self
      (f := fun x => { x with kernels := x.kernels.filter (keepsOther k h) })
      (fun x => rfl), hent]
    rfl
  have hdec : ((d.updateEntry n
      (fun x => { x with kernels := x.kernels.filter (keepsOther k h) })).updateEntry n
        (fun x => { x with def_and_impl_count := x.def_and_impl_count - 1 })).entryFor n =
      some { e with
          kernels := e.kernels.filter (keepsOther k h),
          def_and_impl_count := e.def_and_impl_count - 1 } := by
    rw [entryFor_updateEntry_self
      (f := fun x => { x with def_and_impl_count := x.def_and_impl_count - 1 })
      (fun x => rfl), hfil]
    rfl
  unfold Dispatcher.deregisterImpl_
  simp only [hent]
  rw [if_pos hdai,
    cleanup_erase_eq _ _ _ hdec (by simpa using hdai1) (by simpa using hsch)
      (by simpa using hker)]
  simp only [Dispatcher.updateEntry]
  rw [filter_map_updEntry
      (f := fun x => { x with def_and_impl_count := x.def_and_impl_count - 1 })
      (fun x => rfl),
    filter_map_updEntry
      (f := fun x => { x with kernels := x.kernels.filter (keepsOther k h) })
      (fun x => rfl)]
  rfl

theorem registerFallback_new_eq (d : Dispatcher) (k : DispatchKey)
    (kern : KernelFunction)
    (hlf : fallbackLookup d.backendFallbackKernels k = none) :
    d.registerFallback k kern =
      (Except.ok (Token.fbTok k),
       { d with
           backendFallbackKernels := d.backendFallbackKernels ++ [(k, kern)],
           backendsWithoutFallthrough :=
             if kern.isFallthrough then
               keySetRemove d.backendsWithoutFallthrough k
             else d.backendsWithoutFallthrough }) := by
  unfold Dispatcher.registerFallback setKernel
  simp only [hlf]
  cases hft : kern.isFallthrough with
  | true => simp [hft]
  | false => simp [hft]

theorem registerFallback_dup_eq (d : Dispatcher) (k : DispatchKey)
    (kern kern0 : KernelFunction)
    (hlf : fallbackLookup d.backendFallbackKernels k = some kern0) :
    d.registerFallback k kern = (Except.error DispatchError.duplicateFallback, d) := by
  unfold Dispatcher.registerFallback setKernel
  simp only [hlf]
  rw [if_neg (by simp)]

theorem deregisterFallback_found_eq (d : Dispatcher) (k : DispatchKey)
    (kern0 : KernelFunction)
    (hlf : fallbackLookup d.backendFallbackKernels k = some kern0) :
    d.deregisterFallback_ k =
      (Except.ok (),
       { d with
           backendFallbackKernels :=
             d.backendFallbackKernels.filter (fun kv => decide (¬ kv.1 = k)),
           backendsWithoutFallthrough :=
             keySetAdd d.backendsWithoutFallthrough k }) := by
  unfold Dispatcher.deregisterFallback_ removeKernelIfExists
  simp only [hlf]
  simp

theorem deregisterFallback_missing_eq (d : Dispatcher) (k : DispatchKey)
    (hlf : fallbackLookup d.backendFallbackKernels k = none) :
    d.deregisterFallback_ k =
      (Except.error DispatchError.internalAssert,
       { d with
           backendsWithoutFallthrough :=
             keySetAdd d.backendsWithoutFallthrough k }) := by
  unfold Dispatcher.deregisterFallback_ removeKernelIfExists
  simp only [hlf]
  rw [if_neg (by simp)]

/-! ## The reachable-state invariant -/

@[simp] theorem defFor_defTok (n m : OperatorName) :
    defFor n (Token.defTok m) = decide (m = n) := rfl

@[simp] theorem defFor_implTok (n m : OperatorName) (k : Option DispatchKey) (h : Nat) :
    defFor n (Token.implTok m k h) = false := rfl

@[simp] theorem defFor_fbTok (n : OperatorName) (k : DispatchKey) :
    defFor n (Token.fbTok k) = false := rfl

@[simp] theorem implFor_defTok (n m : OperatorName) :
    implFor n (Token.defTok m) = false := rfl

@[simp] theorem implFor_implTok (n m : OperatorName) (k : Option DispatchKey) (h : Nat) :
    implFor n (Token.implTok m k h) = decide (m = n) := rfl

@[simp] theorem implFor_fbTok (n : OperatorName) (k : DispatchKey) :
    implFor n (Token.fbTok k) = false := rfl

@[simp] theorem tokFor_defTok (n m : OperatorName) :
    tokFor n (Token.defTok m) = decide (m = n) := by
  simp [tokFor]

@[simp] theorem tokFor_implTok (n m : OperatorName) (k : Option DispatchKey) (h : Nat) :
    tokFor n (Token.implTok m k h) = decide (m = n) := by
  simp [tokFor]

@[simp] theorem tokFor_fbTok (n : OperatorName) (k : DispatchKey) :
    tokFor n (Token.fbTok k) = false := by
  simp [tokFor]

theorem length_filter_app_one {α : Type} (p : α → Bool) (l : List α) (t : α) :
    ((l ++ [t]).filter p).length
      = (l.filter p).length + (if p t = true then 1 else 0) := by
  rw [List.filter_append]
  cases hp : p t with
  | true => simp [hp]
  | false => simp [hp]

theorem length_filter_eq_zero {α : Type} (p : α → Bool) (l : List α)
    (h : ∀ a ∈ l, p a = false) : (l.filter p).length = 0 := by
  induction l with
  | nil => rfl
  | cons a l ih =>
    rw [List.filter_cons_of_neg (by simp [h a (List.mem_cons_self a l)])]
    exact ih (fun x hx => h x (List.mem_cons_of_mem a hx))

/-- The invariant every world reachable by balanced single-release sequences
satisfies: the lookup index mirrors the owning collection, the counters agree
with the live tokens, entries are present exactly while something keeps them
alive, schemas track `def_count`, kernel handles are unambiguous, and the
fallback table agrees with its tokens and with `backendsWithoutFallthrough`. -/
structure WF (w : World) : Prop where
  lookup_eq : w.d.operatorLookupTable = w.d.operators.map (fun e => e.name)
  names_nodup : (w.d.operators.map (fun e => e.name)).Nodup
  def_live : ∀ e ∈ w.d.operators, e.def_count = liveDefCount w e.name
  impl_live : ∀ e ∈ w.d.operators, e.kernels.length = liveImplCount w e.name
  dai_eq : ∀ e ∈ w.d.operators, e.def_and_impl_count = e.def_count + e.kernels.length
  dai_pos : ∀ e ∈ w.d.operators, 0 < e.def_and_impl_count
  schema_iff : ∀ e ∈ w.d.operators, (e.schema.isSome = true ↔ 0 < e.def_count)
  schema_name : ∀ e ∈ w.d.operators, ∀ s, e.schema = some s → s.op_name = e.name
  no_entry : ∀ n, w.d.entryFor n = none → ∀ t ∈ w.live, tokFor n t = false
  handles_nodup : ∀ e ∈ w.d.operators, (e.kernels.map (fun kr => kr.handle)).Nodup
  handles_lt : ∀ e ∈ w.d.operators, ∀ kr ∈ e.kernels, kr.handle < e.nextHandle
  tok_kernel : ∀ n k h, Token.implTok n k h ∈ w.live →
    ∃ e, w.d.entryFor n = some e ∧ ∃ kr ∈ e.kernels, kr.key = k ∧ kr.handle = h
  impl_unique : ∀ n k h, w.live.count (Token.implTok n k h) ≤ 1
  fb_keys_nodup : (w.d.backendFallbackKernels.map (fun kv => kv.1)).Nodup
  fb_tok : ∀ k, (fallbackLookup w.d.backendFallbackKernels k).isSome
      = decide (Token.fbTok k ∈ w.live)
  fb_unique : ∀ k, w.live.count (Token.fbTok k) ≤ 1
  fb_inv : ∀ k, ¬ k ∈ w.d.backendsWithoutFallthrough →
    ∃ kern, fallbackLookup w.d.backendFallbackKernels k = some kern
      ∧ kern.isFallthrough = true

theorem mem_keySetFull (k : DispatchKey) : k ∈ keySetFull := by
  cases k <;> simp [keySetFull, DispatchKey.all]

theorem wf_empty : WF World.empty := by
  constructor <;>
    simp [World.empty, Dispatcher.empty, liveDefCount, liveImplCount,
      Dispatcher.entryFor, fallbackLookup, mem_keySetFull]

theorem no_entry_defCount {w : World} {n : OperatorName} (hw : WF w)
    (hent : w.d.entryFor n = none) : liveDefCount w n = 0 :=
  length_filter_eq_zero _ _ (fun t ht => by
    have := hw.no_entry n hent t ht
    cases t <;> simp_all [tokFor, defFor, implFor])

theorem no_entry_implCount {w : World} {n : OperatorName} (hw : WF w)
    (hent : w.d.entryFor n = none) : liveImplCount w n = 0 :=
  length_filter_eq_zero _ _ (fun t ht => by
    have := hw.no_entry n hent t ht
    cases t <;> simp_all [tokFor, defFor, implFor])

theorem updateEntry_comp (d : Dispatcher) (n : OperatorName)
    (f g : OperatorDef → OperatorDef) (hf : ∀ e, (f e).name = e.name) :
    (d.updateEntry n f).updateEntry n g = d.updateEntry n (fun x => g (f x)) := by
  unfold Dispatcher.updateEntry
  simp only [List.map_map]
  congr 1
  apply List.map_congr_left
  intro x hx
  show updEntry n g (updEntry n f x) = updEntry n (fun y => g (f y)) x
  by_cases hxn : x.name = n
  · rw [updEntry_of_eq hxn, updEntry_of_eq (hxn ▸ hf x), updEntry_of_eq hxn]
  · rw [updEntry_of_ne hxn, updEntry_of_ne hxn, updEntry_of_ne hxn]

theorem entryFor_unique {w : World} (hw : WF w) {n : OperatorName}
    {e e0 : OperatorDef} (hent : w.d.entryFor n = some e)
    (he0 : e0 ∈ w.d.operators) (hn0 : e0.name = n) : e0 = e := by
  have := entryFor_of_mem hw.names_nodup he0 hn0
  rw [hent] at this
  exact (Option.some.injEq _ _ ▸ this).symm

/-- Preservation core for a successful `registerDef` on an existing entry:
updating the entry (an increment of both counters, possibly also writing the
schema) and handing out one fresh definition token keeps the invariant. -/
theorem wf_defStep (w : World) (n : OperatorName) (e : OperatorDef)
    (G : OperatorDef → OperatorDef) (hw : WF w) (hent : w.d.entryFor n = some e)
    (hGname : ∀ x, (G x).name = x.name)
    (hGkernels : ∀ x, (G x).kernels = x.kernels)
    (hGnext : ∀ x, (G x).nextHandle = x.nextHandle)
    (hGdef : (G e).def_count = e.def_count + 1)
    (hGdai : (G e).def_and_impl_count = e.def_and_impl_count + 1)
    (hGschema : (G e).schema.isSome = true)
    (hGsname : ∀ s0, (G e).schema = some s0 → s0.op_name = n) :
    WF { d := w.d.updateEntry n G, live := w.live ++ [Token.defTok n] } := by
  have heme : e ∈ w.d.operators := (entryFor_mem hent).1
  have hene : e.name = n := (entryFor_mem hent).2
  constructor
  case lookup_eq =>
    show w.d.operatorLookupTable = _
    rw [hw.lookup_eq, updateEntry_names hGname]
  case names_nodup =>
    rw [updateEntry_names hGname]
    exact hw.names_nodup
  case def_live =>
    intro x hx
    rcases mem_updateEntry hx with ⟨e0, he0, rfl⟩
    by_cases hn0 : e0.name = n
    · have he0e := entryFor_unique hw hent he0 hn0
      subst he0e
      rw [updEntry_of_eq hn0]
      show (G e0).def_count = liveDefCount _ (G e0).name
      rw [hGdef, hGname, hn0]
      unfold liveDefCount
      show _ = ((w.live ++ [Token.defTok n]).filter (defFor n)).length
      rw [length_filter_app_one, if_pos (by simp)]
      have := hw.def_live e0 he0
      rw [hn0] at this
      unfold liveDefCount at this
      omega
    · rw [updEntry_of_ne hn0]
      show e0.def_count = liveDefCount _ e0.name
      unfold liveDefCount
      show _ = ((w.live ++ [Token.defTok n]).filter (defFor e0.name)).length
      rw [length_filter_app_one, if_neg (by simp; intro hc; exact hn0 hc.symm)]
      have := hw.def_live e0 he0
      unfold liveDefCount at this
      omega
  case impl_live =>
    intro x hx
    rcases mem_updateEntry hx with ⟨e0, he0, rfl⟩
    have hall : ∀ m, ((w.live ++ [Token.defTok n]).filter (implFor m)).length
        = liveImplCount w m := by
      intro m
      rw [length_filter_app_one, if_neg (by simp)]
      simp [liveImplCount]
    by_cases hn0 : e0.name = n
    · have he0e := entryFor_unique hw hent he0 hn0
      subst he0e
      rw [updEntry_of_eq hn0]
      show (G e0).kernels.length
        = ((w.live ++ [Token.defTok n]).filter (implFor (G e0).name)).length
      rw [hGkernels, hGname, hall e0.name]
      exact hw.impl_live e0 he0
    · rw [updEntry_of_ne hn0]
      show e0.kernels.length
        = ((w.live ++ [Token.defTok n]).filter (implFor e0.name)).length
      rw [hall e0.name]
      exact hw.impl_live e0 he0
  case dai_eq =>
    intro x hx
    rcases mem_updateEntry hx with ⟨e0, he0, rfl⟩
    by_cases hn0 : e0.name = n
    · have he0e := entryFor_unique hw hent he0 hn0
      subst he0e
      rw [updEntry_of_eq hn0, hGdai, hGdef, hGkernels, hw.dai_eq e0 he0]
      omega
    · rw [updEntry_of_ne hn0]
      exact hw.dai_eq e0 he0
  case dai_pos =>
    intro x hx
    rcases mem_updateEntry hx with ⟨e0, he0, rfl⟩
    by_cases hn0 : e0.name = n
    · have he0e := entryFor_unique hw hent he0 hn0
      subst he0e
      rw [updEntry_of_eq hn0, hGdai]
      omega
    · rw [updEntry_of_ne hn0]
      exact hw.dai_pos e0 he0
  case schema_iff =>
    intro x hx
    rcases mem_updateEntry hx with ⟨e0, he0, rfl⟩
    by_cases hn0 : e0.name = n
    · have he0e := entryFor_unique hw hent he0 hn0
      subst he0e
      rw [updEntry_of_eq hn0, hGdef, hGschema]
      simp
    · rw [updEntry_of_ne hn0]
      exact hw.schema_iff e0 he0
  case schema_name =>
    intro x hx
    rcases mem_updateEntry hx with ⟨e0, he0, rfl⟩
    by_cases hn0 : e0.name = n
    · have he0e := entryFor_unique hw hent he0 hn0
      subst he0e
      rw [updEntry_of_eq hn0]
      intro s0 hs0
      rw [hGname, hn0]
      exact hGsname s0 hs0
    · rw [updEntry_of_ne hn0]
      exact hw.schema_name e0 he0
  case no_entry =>
    intro m hm t ht
    have hmn : ¬ m = n := by
      intro hc
      subst hc
      rw [entryFor_updateEntry_self hGname, hent] at hm
      simp at hm
    rw [entryFor_updateEntry_ne hGname hmn] at hm
    rcases List.mem_append.mp ht with hlt | hlt
    · exact hw.no_entry m hm t hlt
    · have : t = Token.defTok n := List.mem_singleton.mp hlt
      subst this
      simp
      intro hc
      exact hmn hc.symm
  case handles_nodup =>
    intro x hx
    rcases mem_updateEntry hx with ⟨e0, he0, rfl⟩
    by_cases hn0 : e0.name = n
    · have he0e := entryFor_unique hw hent he0 hn0
      subst he0e
      rw [updEntry_of_eq hn0, hGkernels]
      exact hw.handles_nodup e0 he0
    · rw [updEntry_of_ne hn0]
      exact hw.handles_nodup e0 he0
  case handles_lt =>
    intro x hx
    rcases mem_updateEntry hx with ⟨e0, he0, rfl⟩
    by_cases hn0 : e0.name = n
    · have he0e := entryFor_unique hw hent he0 hn0
      subst he0e
      rw [updEntry_of_eq hn0, hGkernels, hGnext]
      exact hw.handles_lt e0 he0
    · rw [updEntry_of_ne hn0]
      exact hw.handles_lt e0 he0
  case tok_kernel =>
    intro m k h hmem
    have hmem2 : Token.implTok m k h ∈ w.live := by
      rcases List.mem_append.mp hmem with hlt | hlt
      · exact hlt
      · simp at hlt
    rcases hw.tok_kernel m k h hmem2 with ⟨e1, hent1, kr, hkr, hkk, hkh⟩
    by_cases hmn : m = n
    · subst hmn
      rw [hent] at hent1
      have : e1 = e := by
        injection hent1.symm
      subst this
      refine ⟨G e1, ?_, kr, ?_, hkk, hkh⟩
      · show (w.d.updateEntry m G).entryFor m = some (G e1)
        rw [entryFor_updateEntry_self hGname, hent]
        rfl
      · rw [hGkernels]
        exact hkr
    · exact ⟨e1, by rw [entryFor_updateEntry_ne hGname hmn]; exact hent1,
        kr, hkr, hkk, hkh⟩
  case impl_unique =>
    intro m k h
    show ((w.live ++ [Token.defTok n]).count (Token.implTok m k h)) ≤ 1
    rw [List.count_append]
    have : [Token.defTok n].count (Token.implTok m k h) = 0 := by
      simp
    rw [this]
    simpa using hw.impl_unique m k h
  case fb_keys_nodup =>
    exact hw.fb_keys_nodup
  case fb_tok =>
    intro k
    show (fallbackLookup w.d.backendFallbackKernels k).isSome
      = decide (Token.fbTok k ∈ w.live ++ [Token.defTok n])
    rw [hw.fb_tok k]
    simp [List.mem_append]
  case fb_unique =>
    intro k
    show ((w.live ++ [Token.defTok n]).count (Token.fbTok k)) ≤ 1
    rw [List.count_append]
    have : [Token.defTok n].count (Token.fbTok k) = 0 := by
      simp
    rw [this]
    simpa using hw.fb_unique k
  case fb_inv =>
    exact hw.fb_inv

/-- `registerDef` (successful or failed) preserves the invariant. -/
theorem wf_regDef (w : World) (s : FunctionSchema) (hw : WF w) :
    WF (applyRegDef w s) := by
  cases hent : w.d.entryFor s.op_name with
  | none =>
    have h2 := entryFor_eq_none_iff.mp hent
    have hfo : w.d.findOperatorByName s.op_name = none := by
      rw [findOp_eq_none_iff, hw.lookup_eq]
      intro hmem
      rcases List.mem_map.mp hmem with ⟨e0, he0, hne0⟩
      exact h2 e0 he0 hne0
    unfold applyRegDef
    rw [registerDef_new_eq w.d s h2 hfo]
    constructor
    case lookup_eq =>
      show w.d.operatorLookupTable ++ [s.op_name] = _
      rw [hw.lookup_eq, List.map_append]
      rfl
    case names_nodup =>
      rw [List.map_append]
      refine List.Nodup.append hw.names_nodup (by simp) ?_
      intro a ha hb
      simp only [List.map_singleton, List.mem_singleton] at hb
      subst hb
      rcases List.mem_map.mp ha with ⟨e0, he0, hne0⟩
      exact h2 e0 he0 hne0
    case def_live =>
      intro x hx
      rcases List.mem_append.mp hx with hx0 | hx0
      · show x.def_count = ((w.live ++ [Token.defTok s.op_name]).filter
          (defFor x.name)).length
        rw [length_filter_app_one, if_neg (by simp; intro hc; exact h2 x hx0 hc.symm)]
        have := hw.def_live x hx0
        unfold liveDefCount at this
        omega
      · have hxe := List.mem_singleton.mp hx0
        subst hxe
        show 1 = ((w.live ++ [Token.defTok s.op_name]).filter
          (defFor s.op_name)).length
        rw [length_filter_app_one, if_pos (by simp)]
        have h0 := no_entry_defCount hw hent
        unfold liveDefCount at h0
        omega
    case impl_live =>
      intro x hx
      rcases List.mem_append.mp hx with hx0 | hx0
      · show x.kernels.length = ((w.live ++ [Token.defTok s.op_name]).filter
          (implFor x.name)).length
        rw [length_filter_app_one, if_neg (by simp)]
        have := hw.impl_live x hx0
        unfold liveImplCount at this
        omega
      · have hxe := List.mem_singleton.mp hx0
        subst hxe
        show 0 = ((w.live ++ [Token.defTok s.op_name]).filter
          (implFor s.op_name)).length
        rw [length_filter_app_one, if_neg (by simp)]
        have h0 := no_entry_implCount hw hent
        unfold liveImplCount at h0
        omega
    case dai_eq =>
      intro x hx
      rcases List.mem_append.mp hx with hx0 | hx0
      · exact hw.dai_eq x hx0
      · have hxe := List.mem_singleton.mp hx0
        subst hxe
        rfl
    case dai_pos =>
      intro x hx
      rcases List.mem_append.mp hx with hx0 | hx0
      · exact hw.dai_pos x hx0
      · have hxe := List.mem_singleton.mp hx0
        subst hxe
        exact Nat.zero_lt_one
    case schema_iff =>
      intro x hx
      rcases List.mem_append.mp hx with hx0 | hx0
      · exact hw.schema_iff x hx0
      · have hxe := List.mem_singleton.mp hx0
        subst hxe
        simp
    case schema_name =>
      intro x hx
      rcases List.mem_append.mp hx with hx0 | hx0
      · exact hw.schema_name x hx0
      · have hxe := List.mem_singleton.mp hx0
        subst hxe
        intro s0 hs0
        have : some s = some s0 := hs0
        injection this with h3
        rw [← h3]
    case no_entry =>
      intro m hm t ht
      have hmn : ¬ m = s.op_name := by
        intro hc
        subst hc
        have hself := entryFor_append_self (d := w.d)
          (x := { name := s.op_name, schema := some s, kernels := [], nextHandle := 0,
                  def_count := 1, def_and_impl_count := 1 }) h2 rfl
        unfold Dispatcher.entryFor at hm
        rw [hm] at hself
        exact Option.noConfusion hself
      have hOld : w.d.entryFor m = none := by
        rw [entryFor_eq_none_iff]
        intro e0 he0 hne0
        have hall := entryFor_eq_none_iff.mp hm
        exact hall e0 (List.mem_append.mpr (Or.inl he0)) hne0
      rcases List.mem_append.mp ht with hlt | hlt
      · exact hw.no_entry m hOld t hlt
      · have := List.mem_singleton.mp hlt
        subst this
        simp
        intro hc
        exact hmn hc.symm
    case handles_nodup =>
      intro x hx
      rcases List.mem_append.mp hx with hx0 | hx0
      · exact hw.handles_nodup x hx0
      · have hxe := List.mem_singleton.mp hx0
        subst hxe
        simp
    case handles_lt =>
      intro x hx
      rcases List.mem_append.mp hx with hx0 | hx0
      · exact hw.handles_lt x hx0
      · have hxe := List.mem_singleton.mp hx0
        subst hxe
        intro kr hkr
        simp at hkr
    case tok_kernel =>
      intro m k h hmem
      have hmem2 : Token.implTok m k h ∈ w.live := by
        rcases List.mem_append.mp hmem with hlt | hlt
        · exact hlt
        · simp at hlt
      rcases hw.tok_kernel m k h hmem2 with ⟨e1, hent1, kr, hkr, hkk, hkh⟩
      refine ⟨e1, ?_, kr, hkr, hkk, hkh⟩
      show (w.d.operators ++ [_]).find? (fun x => decide (x.name = m)) = some e1
      exact find?_app_some _ _ _ _ hent1
    case impl_unique =>
      intro m k h
      show ((w.live ++ [Token.defTok s.op_name]).count (Token.implTok m k h)) ≤ 1
      rw [List.count_append]
      have hz : [Token.defTok s.op_name].count (Token.implTok m k h) = 0 := by simp
      rw [hz]
      simpa using hw.impl_unique m k h
    case fb_keys_nodup =>
      exact hw.fb_keys_nodup
    case fb_tok =>
      intro k
      show (fallbackLookup w.d.backendFallbackKernels k).isSome
        = decide (Token.fbTok k ∈ w.live ++ [Token.defTok s.op_name])
      rw [hw.fb_tok k]
      simp [List.mem_append]
    case fb_unique =>
      intro k
      show ((w.live ++ [Token.defTok s.op_name]).count (Token.fbTok k)) ≤ 1
      rw [List.count_append]
      have hz : [Token.defTok s.op_name].count (Token.fbTok k) = 0 := by simp
      rw [hz]
      simpa using hw.fb_unique k
    case fb_inv =>
      exact hw.fb_inv
  | some e =>
    have hfo : w.d.findOperatorByName s.op_name = some s.op_name := by
      rw [findOp_eq_some_iff, hw.lookup_eq]
      exact List.mem_map.mpr ⟨e, (entryFor_mem hent).1, (entryFor_mem hent).2⟩
    by_cases hdc : e.def_count = 0
    · unfold applyRegDef
      rw [registerDef_attach_eq w.d s e hfo hent hdc,
        updateEntry_comp w.d s.op_name
          (fun x => { x with schema := some s })
          (fun x => { x with def_count := x.def_count + 1,
                             def_and_impl_count := x.def_and_impl_count + 1 })
          (fun x => rfl)]
      refine wf_defStep w s.op_name e _ hw hent (fun x => rfl) (fun x => rfl)
        (fun x => rfl) rfl rfl rfl ?_
      intro s0 hs0
      have : some s = some s0 := hs0
      injection this with h3
      rw [← h3]
    · have hsome : e.schema.isSome = true :=
        (hw.schema_iff e (entryFor_mem hent).1).mpr (Nat.pos_of_ne_zero hdc)
      rcases Option.isSome_iff_exists.mp hsome with ⟨ex, hex⟩
      cases hchk : checkSchemaCompatibility ex s with
      | some err =>
        unfold applyRegDef
        rw [registerDef_err_eq w.d s e ex err hfo hent hdc hex hchk]
        exact hw
      | none =>
        unfold applyRegDef
        rw [registerDef_inc_eq w.d s e ex hfo hent hdc hex hchk]
        refine wf_defStep w s.op_name e _ hw hent (fun x => rfl) (fun x => rfl)
          (fun x => rfl) rfl rfl ?_ ?_
        · show e.schema.isSome = true
          exact hsome
        · intro s0 hs0
          have h3 : e.schema = some s0 := hs0
          rw [hw.schema_name e (entryFor_mem hent).1 s0 h3]
          exact (entryFor_mem hent).2

/-- Preservation core for `registerImpl` on an existing entry: appending one
kernel registration with the fresh handle, bumping `nextHandle` and
`def_and_impl_count`, and handing out the matching implementation token keeps
the invariant. -/
theorem wf_implStep (w : World) (n : OperatorName) (k : Option DispatchKey)
    (e : OperatorDef) (x1 : KernelRegistration) (G : OperatorDef → OperatorDef)
    (hw : WF w) (hent : w.d.entryFor n = some e)
    (hGname : ∀ x, (G x).name = x.name)
    (hGschema : (G e).schema = e.schema)
    (hGdef : (G e).def_count = e.def_count)
    (hGkern : (G e).kernels = e.kernels ++ [x1])
    (hGnext : (G e).nextHandle = e.nextHandle + 1)
    (hGdai : (G e).def_and_impl_count = e.def_and_impl_count + 1)
    (hkrk : x1.key = k) (hkrh : x1.handle = e.nextHandle) :
    WF { d := w.d.updateEntry n G, live := w.live ++ [Token.implTok n k e.nextHandle] } := by
  have heme : e ∈ w.d.operators := (entryFor_mem hent).1
  have hene : e.name = n := (entryFor_mem hent).2
  have hfresh : ¬ Token.implTok n k e.nextHandle ∈ w.live := by
    intro hc
    rcases hw.tok_kernel n k e.nextHandle hc with ⟨e1, hent1, kr, hkr, hkk, hkh⟩
    rw [hent] at hent1
    have he1 : e1 = e := by injection hent1.symm
    subst he1
    have := hw.handles_lt e1 heme kr hkr
    omega
  have hdefSame : ∀ m, ((w.live ++ [Token.implTok n k e.nextHandle]).filter
      (defFor m)).length = liveDefCount w m := by
    intro m
    rw [length_filter_app_one, if_neg (by simp)]
    simp [liveDefCount]
  constructor
  case lookup_eq =>
    show w.d.operatorLookupTable = _
    rw [hw.lookup_eq, updateEntry_names hGname]
  case names_nodup =>
    rw [updateEntry_names hGname]
    exact hw.names_nodup
  case def_live =>
    intro x hx
    rcases mem_updateEntry hx with ⟨e0, he0, rfl⟩
    by_cases hn0 : e0.name = n
    · have he0e := entryFor_unique hw hent he0 hn0
      subst he0e
      rw [updEntry_of_eq hn0]
      show (G e0).def_count = ((w.live ++ [Token.implTok n k e0.nextHandle]).filter
        (defFor (G e0).name)).length
      rw [hGdef, hGname, hdefSame]
      exact hw.def_live e0 he0
    · rw [updEntry_of_ne hn0]
      show e0.def_count = ((w.live ++ [Token.implTok n k e.nextHandle]).filter
        (defFor e0.name)).length
      rw [hdefSame]
      exact hw.def_live e0 he0
  case impl_live =>
    intro x hx
    rcases mem_updateEntry hx with ⟨e0, he0, rfl⟩
    by_cases hn0 : e0.name = n
    · have he0e := entryFor_unique hw hent he0 hn0
      subst he0e
      rw [updEntry_of_eq hn0]
      show (G e0).kernels.length = ((w.live ++ [Token.implTok n k e0.nextHandle]).filter
        (implFor (G e0).name)).length
      rw [hGkern, hGname, hn0, List.length_append, length_filter_app_one,
        if_pos (by simp)]
      have := hw.impl_live e0 he0
      unfold liveImplCount at this
      rw [hn0] at this
      simp
      omega
    · rw [updEntry_of_ne hn0]
      show e0.kernels.length = ((w.live ++ [Token.implTok n k e.nextHandle]).filter
        (implFor e0.name)).length
      rw [length_filter_app_one, if_neg (by simp; intro hc; exact hn0 hc.symm)]
      have := hw.impl_live e0 he0
      unfold liveImplCount at this
      omega
  case dai_eq =>
    intro x hx
    rcases mem_updateEntry hx with ⟨e0, he0, rfl⟩
    by_cases hn0 : e0.name = n
    · have he0e := entryFor_unique hw hent he0 hn0
      subst he0e
      rw [updEntry_of_eq hn0, hGdai, hGdef, hGkern, List.length_append,
        hw.dai_eq e0 he0]
      simp
      omega
    · rw [updEntry_of_ne hn0]
      exact hw.dai_eq e0 he0
  case dai_pos =>
    intro x hx
    rcases mem_updateEntry hx with ⟨e0, he0, rfl⟩
    by_cases hn0 : e0.name = n
    · have he0e := entryFor_unique hw hent he0 hn0
      subst he0e
      rw [updEntry_of_eq hn0, hGdai]
      omega
    · rw [updEntry_of_ne hn0]
      exact hw.dai_pos e0 he0
  case schema_iff =>
    intro x hx
    rcases mem_updateEntry hx with ⟨e0, he0, rfl⟩
    by_cases hn0 : e0.name = n
    · have he0e := entryFor_unique hw hent he0 hn0
      subst he0e
      rw [updEntry_of_eq hn0, hGschema, hGdef]
      exact hw.schema_iff e0 he0
    · rw [updEntry_of_ne hn0]
      exact hw.schema_iff e0 he0
  case schema_name =>
    intro x hx
    rcases mem_updateEntry hx with ⟨e0, he0, rfl⟩
    by_cases hn0 : e0.name = n
    · have he0e := entryFor_unique hw hent he0 hn0
      subst he0e
      rw [updEntry_of_eq hn0]
      intro s0 hs0
      rw [hGschema] at hs0
      rw [hGname]
      exact hw.schema_name e0 he0 s0 hs0
    · rw [updEntry_of_ne hn0]
      exact hw.schema_name e0 he0
  case no_entry =>
    intro m hm t ht
    have hmn : ¬ m = n := by
      intro hc
      subst hc
      rw [entryFor_updateEntry_self hGname, hent] at hm
      simp at hm
    rw [entryFor_updateEntry_ne hGname hmn] at hm
    rcases List.mem_append.mp ht with hlt | hlt
    · exact hw.no_entry m hm t hlt
    · have := List.mem_singleton.mp hlt
      subst this
      simp
      intro hc
      exact hmn hc.symm
  case handles_nodup =>
    intro x hx
    rcases mem_updateEntry hx with ⟨e0, he0, rfl⟩
    by_cases hn0 : e0.name = n
    · have he0e := entryFor_unique hw hent he0 hn0
      subst he0e
      rw [updEntry_of_eq hn0, hGkern, List.map_append]
      refine List.Nodup.append (hw.handles_nodup e0 he0) (by simp) ?_
      intro a ha hb
      simp only [List.map_singleton, List.mem_singleton] at hb
      subst hb
      rcases List.mem_map.mp ha with ⟨kr, hkr, hh⟩
      have := hw.handles_lt e0 he0 kr hkr
      omega
    · rw [updEntry_of_ne hn0]
      exact hw.handles_nodup e0 he0
  case handles_lt =>
    intro x hx
    rcases mem_updateEntry hx with ⟨e0, he0, rfl⟩
    by_cases hn0 : e0.name = n
    · have he0e := entryFor_unique hw hent he0 hn0
      subst he0e
      rw [updEntry_of_eq hn0, hGkern, hGnext]
      intro kr hkr
      rcases List.mem_append.mp hkr with hk0 | hk0
      · have := hw.handles_lt e0 he0 kr hk0
        omega
      · have : kr = x1 := List.mem_singleton.mp hk0
        subst this
        rw [hkrh]
        omega
    · rw [updEntry_of_ne hn0]
      exact hw.handles_lt e0 he0
  case tok_kernel =>
    intro m k2 h hmem
    rcases List.mem_append.mp hmem with hlt | hlt
    · rcases hw.tok_kernel m k2 h hlt with ⟨e1, hent1, kr, hkr, hkk, hkh⟩
      by_cases hmn : m = n
      · subst hmn
        rw [hent] at hent1
        have he1 : e1 = e := by injection hent1.symm
        subst he1
        refine ⟨G e1, ?_, kr, ?_, hkk, hkh⟩
        · rw [entryFor_updateEntry_self hGname, hent]
          rfl
        · rw [hGkern]
          exact List.mem_append.mpr (Or.inl hkr)
      · refine ⟨e1, ?_, kr, hkr, hkk, hkh⟩
        rw [entryFor_updateEntry_ne hGname hmn]
        exact hent1
    · have := List.mem_singleton.mp hlt
      injection this with hm2 hk2 hh2
      subst hm2
      subst hk2
      subst hh2
      refine ⟨G e, ?_, x1, ?_, hkrk, hkrh⟩
      · rw [entryFor_updateEntry_self hGname, hent]
        rfl
      · rw [hGkern]
        exact List.mem_append.mpr (Or.inr (by simp))
  case impl_unique =>
    intro m k2 h
    show ((w.live ++ [Token.implTok n k e.nextHandle]).count (Token.implTok m k2 h)) ≤ 1
    rw [List.count_append]
    by_cases heq : Token.implTok m k2 h = Token.implTok n k e.nextHandle
    · have hz : w.live.count (Token.implTok m k2 h) = 0 := by
        rw [List.count_eq_zero]
        intro hc
        rw [heq] at hc
        exact hfresh hc
      rw [hz, heq]
      simp
    · have hz : [Token.implTok n k e.nextHandle].count (Token.implTok m k2 h) = 0 := by
        rw [List.count_eq_zero]
        simp
        intro hc1 hc2 hc3
        exact heq (by rw [hc1, hc2, hc3])
      rw [hz]
      simpa using hw.impl_unique m k2 h
  case fb_keys_nodup =>
    exact hw.fb_keys_nodup
  case fb_tok =>
    intro k2
    show (fallbackLookup w.d.backendFallbackKernels k2).isSome
      = decide (Token.fbTok k2 ∈ w.live ++ [Token.implTok n k e.nextHandle])
    rw [hw.fb_tok k2]
    simp [List.mem_append]
  case fb_unique =>
    intro k2
    show ((w.live ++ [Token.implTok n k e.nextHandle]).count (Token.fbTok k2)) ≤ 1
    rw [List.count_append]
    have hz : [Token.implTok n k e.nextHandle].count (Token.fbTok k2) = 0 := by simp
    rw [hz]
    simpa using hw.fb_unique k2
  case fb_inv =>
    exact hw.fb_inv

/-- `registerImpl` preserves the invariant. -/
theorem wf_regImpl (w : World) (n : OperatorName) (k : Option DispatchKey)
    (kern : KernelFunction) (isch : Option FunctionSchema) (dbg : String)
    (hw : WF w) : WF (applyRegImpl w n k kern isch dbg) := by
  cases hent : w.d.entryFor n with
  | none =>
    have h2 := entryFor_eq_none_iff.mp hent
    have hfo : w.d.findOperatorByName n = none := by
      rw [findOp_eq_none_iff, hw.lookup_eq]
      intro hmem
      rcases List.mem_map.mp hmem with ⟨e0, he0, hne0⟩
      exact h2 e0 he0 hne0
    have hnotok : ∀ t ∈ w.live, tokFor n t = false := hw.no_entry n hent
    unfold applyRegImpl
    rw [registerImpl_new_eq w.d n k kern isch dbg h2 hfo]
    constructor
    case lookup_eq =>
      show w.d.operatorLookupTable ++ [n] = _
      rw [hw.lookup_eq, List.map_append]
      rfl
    case names_nodup =>
      rw [List.map_append]
      refine List.Nodup.append hw.names_nodup (by simp) ?_
      intro a ha hb
      simp only [List.map_singleton, List.mem_singleton] at hb
      subst hb
      rcases List.mem_map.mp ha with ⟨e0, he0, hne0⟩
      exact h2 e0 he0 hne0
    case def_live =>
      intro x hx
      rcases List.mem_append.mp hx with hx0 | hx0
      · show x.def_count = ((w.live ++ [Token.implTok n k 0]).filter
          (defFor x.name)).length
        rw [length_filter_app_one, if_neg (by simp)]
        have := hw.def_live x hx0
        unfold liveDefCount at this
        omega
      · have hxe := List.mem_singleton.mp hx0
        subst hxe
        show 0 = ((w.live ++ [Token.implTok n k 0]).filter (defFor n)).length
        rw [length_filter_app_one, if_neg (by simp)]
        have h0 := no_entry_defCount hw hent
        unfold liveDefCount at h0
        omega
    case impl_live =>
      intro x hx
      rcases List.mem_append.mp hx with hx0 | hx0
      · show x.kernels.length = ((w.live ++ [Token.implTok n k 0]).filter
          (implFor x.name)).length
        rw [length_filter_app_one, if_neg (by simp; intro hc; exact h2 x hx0 hc.symm)]
        have := hw.impl_live x hx0
        unfold liveImplCount at this
        omega
      · have hxe := List.mem_singleton.mp hx0
        subst hxe
        show 1 = ((w.live ++ [Token.implTok n k 0]).filter (implFor n)).length
        rw [length_filter_app_one, if_pos (by simp)]
        have h0 := no_entry_implCount hw hent
        unfold liveImplCount at h0
        omega
    case dai_eq =>
      intro x hx
      rcases List.mem_append.mp hx with hx0 | hx0
      · exact hw.dai_eq x hx0
      · have hxe := List.mem_singleton.mp hx0
        subst hxe
        rfl
    case dai_pos =>
      intro x hx
      rcases List.mem_append.mp hx with hx0 | hx0
      · exact hw.dai_pos x hx0
      · have hxe := List.mem_singleton.mp hx0
        subst hxe
        exact Nat.zero_lt_one
    case schema_iff =>
      intro x hx
      rcases List.mem_append.mp hx with hx0 | hx0
      · exact hw.schema_iff x hx0
      · have hxe := List.mem_singleton.mp hx0
        subst hxe
        simp
    case schema_name =>
      intro x hx
      rcases List.mem_append.mp hx with hx0 | hx0
      · exact hw.schema_name x hx0
      · have hxe := List.mem_singleton.mp hx0
        subst hxe
        intro s0 hs0
        exact Option.noConfusion hs0
    case no_entry =>
      intro m hm t ht
      have hmn : ¬ m = n := by
        intro hc
        subst hc
        have hself := entryFor_append_self (d := w.d)
          (x := { name := m, schema := none,
                  kernels := [{ key := k, handle := 0, kernel := kern, debug := dbg }],
                  nextHandle := 1, def_count := 0, def_and_impl_count := 1 }) h2 rfl
        unfold Dispatcher.entryFor at hm
        rw [hm] at hself
        exact Option.noConfusion hself
      have hOld : w.d.entryFor m = none := by
        rw [entryFor_eq_none_iff]
        intro e0 he0 hne0
        have hall := entryFor_eq_none_iff.mp hm
        exact hall e0 (List.mem_append.mpr (Or.inl he0)) hne0
      rcases List.mem_append.mp ht with hlt | hlt
      · exact hw.no_entry m hOld t hlt
      · have := List.mem_singleton.mp hlt
        subst this
        simp
        intro hc
        exact hmn hc.symm
    case handles_nodup =>
      intro x hx
      rcases List.mem_append.mp hx with hx0 | hx0
      · exact hw.handles_nodup x hx0
      · have hxe := List.mem_singleton.mp hx0
        subst hxe
        simp
    case handles_lt =>
      intro x hx
      rcases List.mem_append.mp hx with hx0 | hx0
      · exact hw.handles_lt x hx0
      · have hxe := List.mem_singleton.mp hx0
        subst hxe
        intro kr hkr
        have : kr = { key := k, handle := 0, kernel := kern, debug := dbg } := by
          simpa using hkr
        subst this
        exact Nat.zero_lt_one
    case tok_kernel =>
      intro m k2 h hmem
      rcases List.mem_append.mp hmem with hlt | hlt
      · rcases hw.tok_kernel m k2 h hlt with ⟨e1, hent1, kr, hkr, hkk, hkh⟩
        refine ⟨e1, ?_, kr, hkr, hkk, hkh⟩
        show (w.d.operators ++ [_]).find? (fun x => decide (x.name = m)) = some e1
        exact find?_app_some _ _ _ _ hent1
      · have := List.mem_singleton.mp hlt
        injection this with hm2 hk2 hh2
        subst hm2
        subst hk2
        subst hh2
        refine ⟨{ name := m, schema := none,
                  kernels := [{ key := k2, handle := 0, kernel := kern, debug := dbg }],
                  nextHandle := 1, def_count := 0, def_and_impl_count := 1 }, ?_, ?_⟩
        · exact entryFor_append_self h2 rfl
        · exact ⟨{ key := k2, handle := 0, kernel := kern, debug := dbg },
            by simp, rfl, rfl⟩
    case impl_unique =>
      intro m k2 h
      show ((w.live ++ [Token.implTok n k 0]).count (Token.implTok m k2 h)) ≤ 1
      rw [List.count_append]
      by_cases heq : Token.implTok m k2 h = Token.implTok n k 0
      · have hz : w.live.count (Token.implTok m k2 h) = 0 := by
          rw [List.count_eq_zero]
          intro hc
          injection heq with hm2 hk2 hh2
          subst hm2
          have := hnotok _ hc
          simp at this
        rw [hz, heq]
        simp
      · have hz : [Token.implTok n k 0].count (Token.implTok m k2 h) = 0 := by
          rw [List.count_eq_zero]
          simp
          intro hc1 hc2 hc3
          exact heq (by rw [hc1, hc2, hc3])
        rw [hz]
        simpa using hw.impl_unique m k2 h
    case fb_keys_nodup =>
      exact hw.fb_keys_nodup
    case fb_tok =>
      intro k2
      show (fallbackLookup w.d.backendFallbackKernels k2).isSome
        = decide (Token.fbTok k2 ∈ w.live ++ [Token.implTok n k 0])
      rw [hw.fb_tok k2]
      simp [List.mem_append]
    case fb_unique =>
      intro k2
      show ((w.live ++ [Token.implTok n k 0]).count (Token.fbTok k2)) ≤ 1
      rw [List.count_append]
      have hz : [Token.implTok n k 0].count (Token.fbTok k2) = 0 := by simp
      rw [hz]
      simpa using hw.fb_unique k2
    case fb_inv =>
      exact hw.fb_inv
  | some e =>
    have hfo : w.d.findOperatorByName n = some n := by
      rw [findOp_eq_some_iff, hw.lookup_eq]
      exact List.mem_map.mpr ⟨e, (entryFor_mem hent).1, (entryFor_mem hent).2⟩
    unfold applyRegImpl
    rw [registerImpl_old_eq w.d n k kern isch dbg e hfo hent]
    exact wf_implStep w n k e _ _ hw hent (fun x => rfl) rfl rfl rfl rfl rfl rfl rfl

theorem fallbackLookup_app_self {t : List (DispatchKey × KernelFunction)}
    {k : DispatchKey} (kern : KernelFunction)
    (hlf : fallbackLookup t k = none) :
    fallbackLookup (t ++ [(k, kern)]) k = some kern := by
  unfold fallbackLookup at *
  have h0 : t.find? (fun kv => decide (kv.1 = k)) = none := by
    cases hfind : t.find? (fun kv => decide (kv.1 = k)) with
    | none => rfl
    | some kv => rw [hfind] at hlf; simp at hlf
  rw [find?_app_none _ _ _ h0]
  simp

theorem fallbackLookup_app_ne {t : List (DispatchKey × KernelFunction)}
    {k k2 : DispatchKey} (kern : KernelFunction) (hne : ¬ k2 = k) :
    fallbackLookup (t ++ [(k, kern)]) k2 = fallbackLookup t k2 := by
  unfold fallbackLookup
  cases hfind : t.find? (fun kv => decide (kv.1 = k2)) with
  | none =>
    rw [find?_app_none _ _ _ hfind]
    simp
    intro hc
    exact absurd hc.symm hne
  | some kv => rw [find?_app_some _ _ _ _ hfind]

theorem fallbackLookup_filter_self {t : List (DispatchKey × KernelFunction)}
    {k : DispatchKey} :
    fallbackLookup (t.filter (fun kv => decide (¬ kv.1 = k))) k = none := by
  unfold fallbackLookup
  rw [List.find?_eq_none.mpr]
  · rfl
  · intro kv hkv
    have := (List.mem_filter.mp hkv).2
    simp at this ⊢
    exact this

theorem fallbackLookup_filter_ne {t : List (DispatchKey × KernelFunction)}
    {k k2 : DispatchKey} (hne : ¬ k2 = k) :
    fallbackLookup (t.filter (fun kv => decide (¬ kv.1 = k))) k2
      = fallbackLookup t k2 := by
  unfold fallbackLookup
  rw [find?_filter_imp]
  intro kv hkv
  simp at hkv ⊢
  rw [hkv]
  exact fun hc => hne (hc ▸ rfl)

theorem fallbackLookup_none_notMem {t : List (DispatchKey × KernelFunction)}
    {k : DispatchKey} (hlf : fallbackLookup t k = none) :
    ¬ k ∈ t.map (fun kv => kv.1) := by
  intro hmem
  rcases List.mem_map.mp hmem with ⟨kv, hkv, hk⟩
  unfold fallbackLookup at hlf
  cases hfind : t.find? (fun kv => decide (kv.1 = k)) with
  | none =>
    have := List.find?_eq_none.mp hfind kv hkv
    simp at this
    exact this hk
  | some kv2 => rw [hfind] at hlf; simp at hlf

/-- `registerFallback` (successful or failed) preserves the invariant. -/
theorem wf_regFb (w : World) (k : DispatchKey) (kern : KernelFunction)
    (hw : WF w) : WF (applyRegFb w k kern) := by
  cases hlf : fallbackLookup w.d.backendFallbackKernels k with
  | some kern0 =>
    unfold applyRegFb
    rw [registerFallback_dup_eq w.d k kern kern0 hlf]
    exact hw
  | none =>
    have hnotin : ¬ Token.fbTok k ∈ w.live := by
      have := hw.fb_tok k
      rw [hlf] at this
      simpa using this.symm
    unfold applyRegFb
    rw [registerFallback_new_eq w.d k kern hlf]
    constructor
    case lookup_eq => exact hw.lookup_eq
    case names_nodup => exact hw.names_nodup
    case def_live =>
      intro x hx
      show x.def_count = ((w.live ++ [Token.fbTok k]).filter (defFor x.name)).length
      rw [length_filter_app_one, if_neg (by simp)]
      have := hw.def_live x hx
      unfold liveDefCount at this
      omega
    case impl_live =>
      intro x hx
      show x.kernels.length = ((w.live ++ [Token.fbTok k]).filter (implFor x.name)).length
      rw [length_filter_app_one, if_neg (by simp)]
      have := hw.impl_live x hx
      unfold liveImplCount at this
      omega
    case dai_eq => exact hw.dai_eq
    case dai_pos => exact hw.dai_pos
    case schema_iff => exact hw.schema_iff
    case schema_name => exact hw.schema_name
    case no_entry =>
      intro m hm t ht
      rcases List.mem_append.mp ht with hlt | hlt
      · exact hw.no_entry m hm t hlt
      · have := List.mem_singleton.mp hlt
        subst this
        simp
    case handles_nodup => exact hw.handles_nodup
    case handles_lt => exact hw.handles_lt
    case tok_kernel =>
      intro m k2 h hmem
      have hmem2 : Token.implTok m k2 h ∈ w.live := by
        rcases List.mem_append.mp hmem with hlt | hlt
        · exact hlt
        · simp at hlt
      exact hw.tok_kernel m k2 h hmem2
    case impl_unique =>
      intro m k2 h
      show ((w.live ++ [Token.fbTok k]).count (Token.implTok m k2 h)) ≤ 1
      rw [List.count_append]
      have hz : [Token.fbTok k].count (Token.implTok m k2 h) = 0 := by simp
      rw [hz]
      simpa using hw.impl_unique m k2 h
    case fb_keys_nodup =>
      show ((w.d.backendFallbackKernels ++ [(k, kern)]).map (fun kv => kv.1)).Nodup
      rw [List.map_append]
      refine List.Nodup.append hw.fb_keys_nodup (by simp) ?_
      intro a ha hb
      simp only [List.map_singleton, List.mem_singleton] at hb
      subst hb
      exact fallbackLookup_none_notMem hlf ha
    case fb_tok =>
      intro k2
      by_cases hk2 : k2 = k
      · subst hk2
        rw [fallbackLookup_app_self kern hlf]
        simp [List.mem_append]
      · rw [fallbackLookup_app_ne kern hk2, hw.fb_tok k2]
        have hiff : (Token.fbTok k2 ∈ w.live ++ [Token.fbTok k])
            ↔ Token.fbTok k2 ∈ w.live := by
          rw [List.mem_append]
          simp
          intro hc
          exact absurd hc hk2
        simp only [hiff]
    case fb_unique =>
      intro k2
      show ((w.live ++ [Token.fbTok k]).count (Token.fbTok k2)) ≤ 1
      rw [List.count_append]
      by_cases hk2 : k2 = k
      · subst hk2
        have hz : w.live.count (Token.fbTok k2) = 0 :=
          List.count_eq_zero.mpr hnotin
        rw [hz]
        simp
      · have hz : [Token.fbTok k].count (Token.fbTok k2) = 0 := by
          rw [List.count_eq_zero]
          simp
          exact fun hc => hk2 hc
        rw [hz]
        simpa using hw.fb_unique k2
    case fb_inv =>
      intro k2 hk2
      by_cases heq : k2 = k
      · subst heq
        cases hft : kern.isFallthrough with
        | true => exact ⟨kern, fallbackLookup_app_self kern hlf, hft⟩
        | false =>
          exfalso
          rw [hft] at hk2
          simp at hk2
          rcases hw.fb_inv k2 hk2 with ⟨kern2, hlk2, _⟩
          rw [hlf] at hlk2
          exact Option.noConfusion hlk2
      · have hk2old : ¬ k2 ∈ w.d.backendsWithoutFallthrough := by
          cases hft : kern.isFallthrough with
          | true =>
            rw [hft] at hk2
            simp only [if_true] at hk2
            intro hc
            refine hk2 ?_
            unfold keySetRemove
            exact List.mem_filter.mpr ⟨hc, by simpa using heq⟩
          | false =>
            rw [hft] at hk2
            simpa using hk2
        rcases hw.fb_inv k2 hk2old with ⟨kern2, hlk2, hft2⟩
        exact ⟨kern2, by rw [fallbackLookup_app_ne kern heq]; exact hlk2, hft2⟩

/-- `addRegistrationListener` preserves the invariant. -/
theorem wf_addL (w : World) (hw : WF w) : WF (applyAddListener w) :=
  ⟨hw.lookup_eq, hw.names_nodup, hw.def_live, hw.impl_live, hw.dai_eq, hw.dai_pos,
   hw.schema_iff, hw.schema_name, hw.no_entry, hw.handles_nodup, hw.handles_lt,
   hw.tok_kernel, hw.impl_unique, hw.fb_keys_nodup, hw.fb_tok, hw.fb_unique, hw.fb_inv⟩

theorem count_erase_le {α : Type} [DecidableEq α] (a b : α) (l : List α) :
    (l.erase b).count a ≤ l.count a := by
  by_cases hab : a = b
  · subst hab
    rw [List.count_erase_self]
    omega
  · rw [List.count_erase_of_ne hab]

theorem mem_keySetAdd_self (s : List DispatchKey) (k : DispatchKey) :
    k ∈ keySetAdd s k := by
  unfold keySetAdd
  split
  · assumption
  · simp

theorem mem_keySetAdd_cases {s : List DispatchKey} {k m : DispatchKey}
    (hm : m ∈ keySetAdd s k) : m ∈ s ∨ m = k := by
  unfold keySetAdd at hm
  split at hm
  · exact Or.inl hm
  · rcases List.mem_append.mp hm with h | h
    · exact Or.inl h
    · exact Or.inr (List.mem_singleton.mp h)

theorem map_filter_comm {α β : Type} (f : α → β) (q : β → Bool) (l : List α) :
    (l.map f).filter q = (l.filter (fun a => q (f a))).map f := by
  induction l with
  | nil => rfl
  | cons a l ih =>
    rw [List.map_cons]
    cases hq : q (f a) with
    | true =>
      rw [List.filter_cons_of_pos hq,
        List.filter_cons_of_pos (p := fun x => q (f x)) hq,
        List.map_cons, ih]
    | false =>
      rw [List.filter_cons_of_neg (by simp [hq]),
        List.filter_cons_of_neg (p := fun x => q (f x)) (by simp [hq]), ih]

theorem filter_keepsOther_len (ks : List KernelRegistration)
    (k : Option DispatchKey) (h : Nat)
    (hnd : (ks.map (fun kr => kr.handle)).Nodup) (kr0 : KernelRegistration)
    (hmem : kr0 ∈ ks) (hk : kr0.key = k) (hh : kr0.handle = h) :
    (ks.filter (keepsOther k h)).length + 1 = ks.length := by
  induction ks with
  | nil => simp at hmem
  | cons a l ih =>
    rw [List.map_cons, List.nodup_cons] at hnd
    rcases List.mem_cons.mp hmem with rfl | hmem2
    · rw [List.filter_cons_of_neg (by simp [keepsOther, hk, hh])]
      have hfl : l.filter (keepsOther k h) = l := by
        rw [List.filter_eq_self]
        intro b hb
        simp only [keepsOther, decide_eq_true_eq]
        intro hc
        have hbmem : b.handle ∈ l.map (fun kr => kr.handle) := List.mem_map_of_mem _ hb
        rw [hc.2, ← hh] at hbmem
        exact hnd.1 hbmem
      rw [hfl, List.length_cons]
    · cases ha : keepsOther k h a with
      | true =>
        rw [List.filter_cons_of_pos ha, List.length_cons, List.length_cons]
        have := ih hnd.2 hmem2
        omega
      | false =>
        exfalso
        simp only [keepsOther, decide_eq_false_iff_not, Classical.not_not] at ha
        have hmemh : kr0.handle ∈ l.map (fun kr => kr.handle) :=
          List.mem_map_of_mem _ hmem2
        rw [hh, ← ha.2] at hmemh
        exact hnd.1 hmemh

/-- Preservation core for the complete removal of an operator entry (the
`cleanup` erase path): once no live token keeps `n` alive, filtering the entry
out of the owning collection and the lookup index keeps the invariant. -/
theorem wf_eraseStep (w : World) (n : OperatorName) (t : Token)
    (ht : t ∈ w.live) (hw : WF w) (htok : tokFor n t = true)
    (hDefZero : ∀ u ∈ w.live.erase t, defFor n u = false)
    (hImplZero : ∀ u ∈ w.live.erase t, implFor n u = false) :
    WF ⟨{ w.d with
            operators := w.d.operators.filter (fun x => decide (¬ x.name = n)),
            operatorLookupTable :=
              w.d.operatorLookupTable.filter (fun x => decide (¬ x = n)) },
        w.live.erase t⟩ := by
  have htfb : ∀ k2, ¬ t = Token.fbTok k2 := by
    intro k2 hc
    subst hc
    simp at htok
  have hdf : ∀ m2, ¬ m2 = n → defFor m2 t = false := by
    intro m2 hm2
    cases t with
    | defTok m3 =>
      simp at htok ⊢
      intro hc
      exact hm2 (hc ▸ htok)
    | implTok m3 k3 h3 => rfl
    | fbTok k3 => rfl
  have hif : ∀ m2, ¬ m2 = n → implFor m2 t = false := by
    intro m2 hm2
    cases t with
    | defTok m3 => rfl
    | implTok m3 k3 h3 =>
      simp at htok ⊢
      intro hc
      exact hm2 (hc ▸ htok)
    | fbTok k3 => rfl
  have hfind : ∀ m, ¬ m = n →
      (w.d.operators.filter (fun x => decide (¬ x.name = n))).find?
        (fun x => decide (x.name = m)) = w.d.operators.find? (fun x => decide (x.name = m)) := by
    intro m hm
    apply find?_filter_imp
    intro a ha
    simp at ha ⊢
    rw [ha]
    exact fun hc => hm (hc ▸ rfl)
  constructor
  case lookup_eq =>
    show w.d.operatorLookupTable.filter (fun x => decide (¬ x = n)) = _
    rw [hw.lookup_eq]
    exact map_filter_comm (fun e => e.name) (fun x => decide (¬ x = n)) w.d.operators
  case names_nodup =>
    refine List.Nodup.sublist ?_ hw.names_nodup
    exact List.Sublist.map _ (List.filter_sublist _)
  case def_live =>
    intro x hx
    have hx0 := List.mem_filter.mp hx
    have hxn : ¬ x.name = n := by simpa using hx0.2
    show x.def_count = ((w.live.erase t).filter (defFor x.name)).length
    rw [filter_erase_not _ _ (hdf x.name hxn)]
    exact hw.def_live x hx0.1
  case impl_live =>
    intro x hx
    have hx0 := List.mem_filter.mp hx
    have hxn : ¬ x.name = n := by simpa using hx0.2
    show x.kernels.length = ((w.live.erase t).filter (implFor x.name)).length
    rw [filter_erase_not _ _ (hif x.name hxn)]
    exact hw.impl_live x hx0.1
  case dai_eq =>
    intro x hx
    exact hw.dai_eq x (List.mem_filter.mp hx).1
  case dai_pos =>
    intro x hx
    exact hw.dai_pos x (List.mem_filter.mp hx).1
  case schema_iff =>
    intro x hx
    exact hw.schema_iff x (List.mem_filter.mp hx).1
  case schema_name =>
    intro x hx
    exact hw.schema_name x (List.mem_filter.mp hx).1
  case no_entry =>
    intro m hm u hu
    by_cases hmn : m = n
    · subst hmn
      simp [tokFor, hDefZero u hu, hImplZero u hu]
    · unfold Dispatcher.entryFor at hm
      rw [hfind m hmn] at hm
      exact hw.no_entry m hm u (List.mem_of_mem_erase hu)
  case handles_nodup =>
    intro x hx
    exact hw.handles_nodup x (List.mem_filter.mp hx).1
  case handles_lt =>
    intro x hx
    exact hw.handles_lt x (List.mem_filter.mp hx).1
  case tok_kernel =>
    intro m k2 h2 hmem
    by_cases hmn : m = n
    · subst hmn
      have := hImplZero _ hmem
      simp at this
    · rcases hw.tok_kernel m k2 h2 (List.mem_of_mem_erase hmem) with
        ⟨e1, hent1, kr, hkr, hkk, hkh⟩
      refine ⟨e1, ?_, kr, hkr, hkk, hkh⟩
      show (w.d.operators.filter (fun x => decide (¬ x.name = n))).find?
        (fun x => decide (x.name = m)) = some e1
      rw [hfind m hmn]
      exact hent1
  case impl_unique =>
    intro m k2 h2
    exact le_trans (count_erase_le _ _ _) (hw.impl_unique m k2 h2)
  case fb_keys_nodup =>
    exact hw.fb_keys_nodup
  case fb_tok =>
    intro k2
    show (fallbackLookup w.d.backendFallbackKernels k2).isSome
      = decide (Token.fbTok k2 ∈ w.live.erase t)
    rw [hw.fb_tok k2]
    have hiff : (Token.fbTok k2 ∈ w.live.erase t) ↔ Token.fbTok k2 ∈ w.live :=
      List.mem_erase_of_ne (fun hc => htfb k2 hc.symm)
    simp only [hiff]
  case fb_unique =>
    intro k2
    exact le_trans (count_erase_le _ _ _) (hw.fb_unique k2)
  case fb_inv =>
    exact hw.fb_inv

/-- Preservation core for a definition-token release that does not destroy the
entry: decrementing both counters (and possibly detaching the schema when the
last definition goes away) while retiring one definition token keeps the
invariant. -/
theorem wf_defRelStep (w : World) (n : OperatorName) (e : OperatorDef)
    (G : OperatorDef → OperatorDef) (hw : WF w) (hent : w.d.entryFor n = some e)
    (ht : Token.defTok n ∈ w.live)
    (hGname : ∀ x, (G x).name = x.name)
    (hGkernels : ∀ x, (G x).kernels = x.kernels)
    (hGnext : ∀ x, (G x).nextHandle = x.nextHandle)
    (hGdef : (G e).def_count = e.def_count - 1)
    (hGdai : (G e).def_and_impl_count = e.def_and_impl_count - 1)
    (hd1 : 1 ≤ e.def_count)
    (hdaipos : 0 < e.def_and_impl_count - 1)
    (hGschema : ((G e).schema.isSome = true ↔ 0 < e.def_count - 1))
    (hGsname : ∀ s0, (G e).schema = some s0 → s0.op_name = n) :
    WF { d := w.d.updateEntry n G, live := w.live.erase (Token.defTok n) } := by
  have heme : e ∈ w.d.operators := (entryFor_mem hent).1
  have hene : e.name = n := (entryFor_mem hent).2
  have hdefDec : ((w.live.erase (Token.defTok n)).filter (defFor n)).length + 1
      = (w.live.filter (defFor n)).length :=
    length_filter_erase _ _ (by simp) w.live ht
  have hdefSame : ∀ m, ¬ m = n →
      ((w.live.erase (Token.defTok n)).filter (defFor m)).length
        = (w.live.filter (defFor m)).length := by
    intro m hm
    rw [filter_erase_not _ _ (by simp; intro hc; exact hm hc.symm)]
  have himplSame : ∀ m,
      ((w.live.erase (Token.defTok n)).filter (implFor m)).length
        = (w.live.filter (implFor m)).length := by
    intro m
    rw [filter_erase_not _ _ (by simp)]
  constructor
  case lookup_eq =>
    show w.d.operatorLookupTable = _
    rw [hw.lookup_eq, updateEntry_names hGname]
  case names_nodup =>
    rw [updateEntry_names hGname]
    exact hw.names_nodup
  case def_live =>
    intro x hx
    rcases mem_updateEntry hx with ⟨e0, he0, rfl⟩
    by_cases hn0 : e0.name = n
    · have he0e := entryFor_unique hw hent he0 hn0
      subst he0e
      rw [updEntry_of_eq hn0]
      show (G e0).def_count = ((w.live.erase (Token.defTok n)).filter
        (defFor (G e0).name)).length
      rw [hGdef, hGname, hn0]
      have hold := hw.def_live e0 he0
      rw [hn0] at hold
      unfold liveDefCount at hold
      omega
    · rw [updEntry_of_ne hn0]
      show e0.def_count = ((w.live.erase (Token.defTok n)).filter
        (defFor e0.name)).length
      rw [hdefSame e0.name hn0]
      exact hw.def_live e0 he0
  case impl_live =>
    intro x hx
    rcases mem_updateEntry hx with ⟨e0, he0, rfl⟩
    by_cases hn0 : e0.name = n
    · have he0e := entryFor_unique hw hent he0 hn0
      subst he0e
      rw [updEntry_of_eq hn0]
      show (G e0).kernels.length = ((w.live.erase (Token.defTok n)).filter
        (implFor (G e0).name)).length
      rw [hGkernels, hGname, himplSame]
      exact hw.impl_live e0 he0
    · rw [updEntry_of_ne hn0]
      show e0.kernels.length = ((w.live.erase (Token.defTok n)).filter
        (implFor e0.name)).length
      rw [himplSame]
      exact hw.impl_live e0 he0
  case dai_eq =>
    intro x hx
    rcases mem_updateEntry hx with ⟨e0, he0, rfl⟩
    by_cases hn0 : e0.name = n
    · have he0e := entryFor_unique hw hent he0 hn0
      subst he0e
      rw [updEntry_of_eq hn0, hGdai, hGdef, hGkernels]
      have := hw.dai_eq e0 he0
      omega
    · rw [updEntry_of_ne hn0]
      exact hw.dai_eq e0 he0
  case dai_pos =>
    intro x hx
    rcases mem_updateEntry hx with ⟨e0, he0, rfl⟩
    by_cases hn0 : e0.name = n
    · have he0e := entryFor_unique hw hent he0 hn0
      subst he0e
      rw [updEntry_of_eq hn0, hGdai]
      exact hdaipos
    · rw [updEntry_of_ne hn0]
      exact hw.dai_pos e0 he0
  case schema_iff =>
    intro x hx
    rcases mem_updateEntry hx with ⟨e0, he0, rfl⟩
    by_cases hn0 : e0.name = n
    · have he0e := entryFor_unique hw hent he0 hn0
      subst he0e
      rw [updEntry_of_eq hn0, hGdef]
      exact hGschema
    · rw [updEntry_of_ne hn0]
      exact hw.schema_iff e0 he0
  case schema_name =>
    intro x hx
    rcases mem_updateEntry hx with ⟨e0, he0, rfl⟩
    by_cases hn0 : e0.name = n
    · have he0e := entryFor_unique hw hent he0 hn0
      subst he0e
      rw [updEntry_of_eq hn0]
      intro s0 hs0
      rw [hGname, hn0]
      exact hGsname s0 hs0
    · rw [updEntry_of_ne hn0]
      exact hw.schema_name e0 he0
  case no_entry =>
    intro m hm t ht2
    have hmn : ¬ m = n := by
      intro hc
      subst hc
      rw [entryFor_updateEntry_self hGname, hent] at hm
      simp at hm
    rw [entryFor_updateEntry_ne hGname hmn] at hm
    exact hw.no_entry m hm t (List.mem_of_mem_erase ht2)
  case handles_nodup =>
    intro x hx
    rcases mem_updateEntry hx with ⟨e0, he0, rfl⟩
    by_cases hn0 : e0.name = n
    · have he0e := entryFor_unique hw hent he0 hn0
      subst he0e
      rw [updEntry_of_eq hn0, hGkernels]
      exact hw.handles_nodup e0 he0
    · rw [updEntry_of_ne hn0]
      exact hw.handles_nodup e0 he0
  case handles_lt =>
    intro x hx
    rcases mem_updateEntry hx with ⟨e0, he0, rfl⟩
    by_cases hn0 : e0.name = n
    · have he0e := entryFor_unique hw hent he0 hn0
      subst he0e
      rw [updEntry_of_eq hn0, hGkernels, hGnext]
      exact hw.handles_lt e0 he0
    · rw [updEntry_of_ne hn0]
      exact hw.handles_lt e0 he0
  case tok_kernel =>
    intro m k2 h2 hmem
    rcases hw.tok_kernel m k2 h2 (List.mem_of_mem_erase hmem) with
      ⟨e1, hent1, kr, hkr, hkk, hkh⟩
    by_cases hmn : m = n
    · subst hmn
      rw [hent] at hent1
      have he1 : e1 = e := by injection hent1.symm
      subst he1
      refine ⟨G e1, ?_, kr, ?_, hkk, hkh⟩
      · rw [entryFor_updateEntry_self hGname, hent]
        rfl
      · rw [hGkernels]
        exact hkr
    · refine ⟨e1, ?_, kr, hkr, hkk, hkh⟩
      rw [entryFor_updateEntry_ne hGname hmn]
      exact hent1
  case impl_unique =>
    intro m k2 h2
    exact le_trans (count_erase_le _ _ _) (hw.impl_unique m k2 h2)
  case fb_keys_nodup =>
    exact hw.fb_keys_nodup
  case fb_tok =>
    intro k2
    show (fallbackLookup w.d.backendFallbackKernels k2).isSome
      = decide (Token.fbTok k2 ∈ w.live.erase (Token.defTok n))
    rw [hw.fb_tok k2]
    have hiff : (Token.fbTok k2 ∈ w.live.erase (Token.defTok n))
        ↔ Token.fbTok k2 ∈ w.live :=
      List.mem_erase_of_ne (by simp)
    simp only [hiff]
  case fb_unique =>
    intro k2
    exact le_trans (count_erase_le _ _ _) (hw.fb_unique k2)
  case fb_inv =>
    exact hw.fb_inv

/-- Preservation core for an implementation-token release that does not destroy
the entry: removing the located kernel registration and decrementing
`def_and_impl_count` while retiring the matching token keeps the invariant. -/
theorem wf_implRelStep (w : World) (n : OperatorName) (k : Option DispatchKey)
    (h : Nat) (e : OperatorDef) (G : OperatorDef → OperatorDef) (hw : WF w)
    (hent : w.d.entryFor n = some e)
    (ht : Token.implTok n k h ∈ w.live)
    (hGname : ∀ x, (G x).name = x.name)
    (hGschema : (G e).schema = e.schema)
    (hGdef : (G e).def_count = e.def_count)
    (hGkern : (G e).kernels = e.kernels.filter (keepsOther k h))
    (hGnext : (G e).nextHandle = e.nextHandle)
    (hGdai : (G e).def_and_impl_count = e.def_and_impl_count - 1)
    (hdaipos : 0 < e.def_and_impl_count - 1) :
    WF { d := w.d.updateEntry n G, live := w.live.erase (Token.implTok n k h) } := by
  have heme : e ∈ w.d.operators := (entryFor_mem hent).1
  have hene : e.name = n := (entryFor_mem hent).2
  rcases hw.tok_kernel n k h ht with ⟨e1, hent1, kr0, hkr0, hk0, hh0⟩
  rw [hent] at hent1
  have he1 : e1 = e := by injection hent1.symm
  subst he1
  have hflen : (e1.kernels.filter (keepsOther k h)).length + 1 = e1.kernels.length :=
    filter_keepsOther_len e1.kernels k h (hw.handles_nodup e1 heme) kr0 hkr0 hk0 hh0
  have himplDec : ((w.live.erase (Token.implTok n k h)).filter (implFor n)).length + 1
      = (w.live.filter (implFor n)).length :=
    length_filter_erase _ _ (by simp) w.live ht
  have himplSame : ∀ m, ¬ m = n →
      ((w.live.erase (Token.implTok n k h)).filter (implFor m)).length
        = (w.live.filter (implFor m)).length := by
    intro m hm
    rw [filter_erase_not _ _ (by simp; intro hc; exact hm hc.symm)]
  have hdefSame : ∀ m,
      ((w.live.erase (Token.implTok n k h)).filter (defFor m)).length
        = (w.live.filter (defFor m)).length := by
    intro m
    rw [filter_erase_not _ _ (by simp)]
  have hnotin : ¬ Token.implTok n k h ∈ w.live.erase (Token.implTok n k h) := by
    intro hc
    have hcount := hw.impl_unique n k h
    have hpos : 1 ≤ w.live.count (Token.implTok n k h) := List.one_le_count_iff.mpr ht
    have := List.count_erase_self (Token.implTok n k h) w.live
    have hmem := List.one_le_count_iff.mpr hc
    rw [this] at hmem
    omega
  constructor
  case lookup_eq =>
    show w.d.operatorLookupTable = _
    rw [hw.lookup_eq, updateEntry_names hGname]
  case names_nodup =>
    rw [updateEntry_names hGname]
    exact hw.names_nodup
  case def_live =>
    intro x hx
    rcases mem_updateEntry hx with ⟨e0, he0, rfl⟩
    by_cases hn0 : e0.name = n
    · have he0e := entryFor_unique hw hent he0 hn0
      subst he0e
      rw [updEntry_of_eq hn0]
      show (G e0).def_count = ((w.live.erase (Token.implTok n k h)).filter
        (defFor (G e0).name)).length
      rw [hGdef, hGname, hdefSame]
      exact hw.def_live e0 he0
    · rw [updEntry_of_ne hn0]
      show e0.def_count = ((w.live.erase (Token.implTok n k h)).filter
        (defFor e0.name)).length
      rw [hdefSame]
      exact hw.def_live e0 he0
  case impl_live =>
    intro x hx
    rcases mem_updateEntry hx with ⟨e0, he0, rfl⟩
    by_cases hn0 : e0.name = n
    · have he0e := entryFor_unique hw hent he0 hn0
      subst he0e
      rw [updEntry_of_eq hn0]
      show (G e0).kernels.length = ((w.live.erase (Token.implTok n k h)).filter
        (implFor (G e0).name)).length
      rw [hGkern, hGname, hn0]
      have hold := hw.impl_live e0 he0
      rw [hn0] at hold
      unfold liveImplCount at hold
      omega
    · rw [updEntry_of_ne hn0]
      show e0.kernels.length = ((w.live.erase (Token.implTok n k h)).filter
        (implFor e0.name)).length
      rw [himplSame e0.name hn0]
      exact hw.impl_live e0 he0
  case dai_eq =>
    intro x hx
    rcases mem_updateEntry hx with ⟨e0, he0, rfl⟩
    by_cases hn0 : e0.name = n
    · have he0e := entryFor_unique hw hent he0 hn0
      subst he0e
      rw [updEntry_of_eq hn0, hGdai, hGdef, hGkern]
      have := hw.dai_eq e0 he0
      omega
    · rw [updEntry_of_ne hn0]
      exact hw.dai_eq e0 he0
  case dai_pos =>
    intro x hx
    rcases mem_updateEntry hx with ⟨e0, he0, rfl⟩
    by_cases hn0 : e0.name = n
    · have he0e := entryFor_unique hw hent he0 hn0
      subst he0e
      rw [updEntry_of_eq hn0, hGdai]
      exact hdaipos
    · rw [updEntry_of_ne hn0]
      exact hw.dai_pos e0 he0
  case schema_iff =>
    intro x hx
    rcases mem_updateEntry hx with ⟨e0, he0, rfl⟩
    by_cases hn0 : e0.name = n
    · have he0e := entryFor_unique hw hent he0 hn0
      subst he0e
      rw [updEntry_of_eq hn0, hGschema, hGdef]
      exact hw.schema_iff e0 he0
    · rw [updEntry_of_ne hn0]
      exact hw.schema_iff e0 he0
  case schema_name =>
    intro x hx
    rcases mem_updateEntry hx with ⟨e0, he0, rfl⟩
    by_cases hn0 : e0.name = n
    · have he0e := entryFor_unique hw hent he0 hn0
      subst he0e
      rw [updEntry_of_eq hn0]
      intro s0 hs0
      rw [hGschema] at hs0
      rw [hGname]
      exact hw.schema_name e0 he0 s0 hs0
    · rw [updEntry_of_ne hn0]
      exact hw.schema_name e0 he0
  case no_entry =>
    intro m hm t ht2
    have hmn : ¬ m = n := by
      intro hc
      subst hc
      rw [entryFor_updateEntry_self hGname, hent] at hm
      simp at hm
    rw [entryFor_updateEntry_ne hGname hmn] at hm
    exact hw.no_entry m hm t (List.mem_of_mem_erase ht2)
  case handles_nodup =>
    intro x hx
    rcases mem_updateEntry hx with ⟨e0, he0, rfl⟩
    by_cases hn0 : e0.name = n
    · have he0e := entryFor_unique hw hent he0 hn0
      subst he0e
      rw [updEntry_of_eq hn0, hGkern]
      refine List.Nodup.sublist ?_ (hw.handles_nodup e0 he0)
      exact List.Sublist.map _ (List.filter_sublist _)
    · rw [updEntry_of_ne hn0]
      exact hw.handles_nodup e0 he0
  case handles_lt =>
    intro x hx
    rcases mem_updateEntry hx with ⟨e0, he0, rfl⟩
    by_cases hn0 : e0.name = n
    · have he0e := entryFor_unique hw hent he0 hn0
      subst he0e
      rw [updEntry_of_eq hn0, hGkern, hGnext]
      intro kr hkr
      exact hw.handles_lt e0 he0 kr (List.mem_filter.mp hkr).1
    · rw [updEntry_of_ne hn0]
      exact hw.handles_lt e0 he0
  case tok_kernel =>
    intro m k2 h2 hmem
    have hne : ¬ Token.implTok m k2 h2 = Token.implTok n k h := by
      intro hc
      rw [hc] at hmem
      exact hnotin hmem
    rcases hw.tok_kernel m k2 h2 (List.mem_of_mem_erase hmem) with
      ⟨e1b, hent1b, kr, hkr, hkk, hkh⟩
    by_cases hmn : m = n
    · subst hmn
      rw [hent] at hent1b
      have he1b : e1b = e1 := by injection hent1b.symm
      subst he1b
      refine ⟨G e1b, ?_, kr, ?_, hkk, hkh⟩
      · rw [entryFor_updateEntry_self hGname, hent]
        rfl
      · rw [hGkern, List.mem_filter]
        refine ⟨hkr, ?_⟩
        simp only [keepsOther, decide_eq_true_eq]
        intro hc
        have hkrkr0 : kr = kr0 :=
          List.inj_on_of_nodup_map (hw.handles_nodup e1b heme) hkr hkr0
            (by rw [hc.2, hh0])
        exact hne (by rw [← hkk, ← hkh, hkrkr0, hk0, hh0])
    · refine ⟨e1b, ?_, kr, hkr, hkk, hkh⟩
      rw [entryFor_updateEntry_ne hGname hmn]
      exact hent1b
  case impl_unique =>
    intro m k2 h2
    exact le_trans (count_erase_le _ _ _) (hw.impl_unique m k2 h2)
  case fb_keys_nodup =>
    exact hw.fb_keys_nodup
  case fb_tok =>
    intro k2
    show (fallbackLookup w.d.backendFallbackKernels k2).isSome
      = decide (Token.fbTok k2 ∈ w.live.erase (Token.implTok n k h))
    rw [hw.fb_tok k2]
    have hiff : (Token.fbTok k2 ∈ w.live.erase (Token.implTok n k h))
        ↔ Token.fbTok k2 ∈ w.live :=
      List.mem_erase_of_ne (by simp)
    simp only [hiff]
  case fb_unique =>
    intro k2
    exact le_trans (count_erase_le _ _ _) (hw.fb_unique k2)
  case fb_inv =>
    exact hw.fb_inv

theorem mem_keySetAdd_of_mem {s : List DispatchKey} {k m : DispatchKey}
    (hm : m ∈ s) : m ∈ keySetAdd s k := by
  unfold keySetAdd
  split
  · exact hm
  · exact List.mem_append.mpr (Or.inl hm)

/-- Releasing a definition token preserves the invariant. -/
theorem wf_releaseDef (w : World) (n : OperatorName) (hw : WF w)
    (ht : Token.defTok n ∈ w.live) : WF (applyRelease w (Token.defTok n)) := by
  cases hent : w.d.entryFor n with
  | none =>
    exfalso
    have := hw.no_entry n hent _ ht
    simp at this
  | some e =>
    have heme := (entryFor_mem hent).1
    have hene := (entryFor_mem hent).2
    have hdl := hw.def_live e heme
    rw [hene] at hdl
    unfold liveDefCount at hdl
    have hd1 : 1 ≤ e.def_count := by
      have hpos : 0 < (w.live.filter (defFor n)).length := by
        rw [filter_length_pos_iff]
        exact ⟨_, ht, by simp⟩
      omega
    have hsome : e.schema.isSome = true := (hw.schema_iff e heme).mpr (by omega)
    rcases Option.isSome_iff_exists.mp hsome with ⟨s, hs⟩
    have hsn : s.op_name = n := by
      rw [hw.schema_name e heme s hs]
      exact hene
    have hdai := hw.dai_eq e heme
    have hpos2 : 0 < e.def_count ∧ 0 < e.def_and_impl_count :=
      ⟨by omega, by omega⟩
    have hmem : n ∈ w.d.operatorLookupTable := by
      rw [hw.lookup_eq]
      exact List.mem_map.mpr ⟨e, heme, hene⟩
    have hil := hw.impl_live e heme
    rw [hene] at hil
    unfold liveImplCount at hil
    show WF { d := (w.d.deregisterDef_ n).2, live := w.live.erase (Token.defTok n) }
    by_cases hgt : e.def_count - 1 = 0
    · by_cases hdai1 : e.def_and_impl_count - 1 = 0
      · have hker : e.kernels = [] := by
          rw [← List.length_eq_zero]
          omega
        rw [deregisterDef_zero_erase_eq w.d n e s hent hs hsn hmem hpos2 hgt hdai1 hker]
        have hDefZero : ∀ u ∈ w.live.erase (Token.defTok n), defFor n u = false := by
          have hlenl := length_filter_erase (defFor n) (Token.defTok n) (by simp) w.live ht
          intro u hu
          by_contra hc
          have hc2 : defFor n u = true := by
            cases hdf : defFor n u
            · exact absurd hdf hc
            · rfl
          have hposx : 0 < ((w.live.erase (Token.defTok n)).filter (defFor n)).length := by
            rw [filter_length_pos_iff]
            exact ⟨u, hu, hc2⟩
          omega
        have hImplZero : ∀ u ∈ w.live.erase (Token.defTok n), implFor n u = false := by
          intro u hu
          by_contra hc
          have hc2 : implFor n u = true := by
            cases hdf : implFor n u
            · exact absurd hdf hc
            · rfl
          have hposx : 0 < (w.live.filter (implFor n)).length := by
            rw [filter_length_pos_iff]
            exact ⟨u, List.mem_of_mem_erase hu, hc2⟩
          rw [hker] at hil
          simp at hil
          omega
        exact wf_eraseStep w n (Token.defTok n) ht hw (by simp) hDefZero hImplZero
      · rw [deregisterDef_zero_keep_eq w.d n e s hent hs hsn hmem hpos2 hgt hdai1,
          updateEntry_comp w.d n
            (fun x => { x with def_count := x.def_count - 1,
                               def_and_impl_count := x.def_and_impl_count - 1 })
            (fun x => { x with schema := none })
            (fun x => rfl)]
        refine wf_defRelStep w n e _ hw hent ht (fun x => rfl) (fun x => rfl)
          (fun x => rfl) rfl rfl hd1 (by omega) ?_ ?_
        · show (Option.isSome (none : Option FunctionSchema) = true ↔ 0 < e.def_count - 1)
          rw [hgt]
          simp
        · intro s0 hs0
          exact Option.noConfusion hs0
    · have hdai2 : ¬ e.def_and_impl_count - 1 = 0 := by omega
      rw [deregisterDef_many_eq w.d n e s hent hs hsn hpos2 hgt hdai2]
      refine wf_defRelStep w n e _ hw hent ht (fun x => rfl) (fun x => rfl)
        (fun x => rfl) rfl rfl hd1 (by omega) ?_ ?_
      · show (e.schema.isSome = true ↔ 0 < e.def_count - 1)
        constructor
        · intro _
          omega
        · intro _
          exact hsome
      · intro s0 hs0
        have h3 : e.schema = some s0 := hs0
        rw [hw.schema_name e heme s0 h3]
        exact hene

/-- Releasing a kernel-implementation token preserves the invariant. -/
theorem wf_releaseImpl (w : World) (n : OperatorName) (k : Option DispatchKey)
    (h : Nat) (hw : WF w) (ht : Token.implTok n k h ∈ w.live) :
    WF (applyRelease w (Token.implTok n k h)) := by
  rcases hw.tok_kernel n k h ht with ⟨e, hent, kr0, hkr0, hk0, hh0⟩
  have heme := (entryFor_mem hent).1
  have hene := (entryFor_mem hent).2
  have hdaipos := hw.dai_pos e heme
  have hdai := hw.dai_eq e heme
  have hlen1 : 1 ≤ e.kernels.length :=
    List.length_pos.mpr (List.ne_nil_of_mem hkr0)
  have hflen : (e.kernels.filter (keepsOther k h)).length + 1 = e.kernels.length :=
    filter_keepsOther_len e.kernels k h (hw.handles_nodup e heme) kr0 hkr0 hk0 hh0
  have hdl := hw.def_live e heme
  rw [hene] at hdl
  unfold liveDefCount at hdl
  have hil := hw.impl_live e heme
  rw [hene] at hil
  unfold liveImplCount at hil
  show WF { d := (w.d.deregisterImpl_ n k h).2, live := w.live.erase (Token.implTok n k h) }
  by_cases hdai1 : e.def_and_impl_count - 1 = 0
  · have hdef0 : e.def_count = 0 := by omega
    have hlen : e.kernels.length = 1 := by omega
    have hsch : e.schema = none := by
      have hiff := hw.schema_iff e heme
      cases hcs : e.schema
      · rfl
      · rw [hcs] at hiff
        simp at hiff
        omega
    have hker : e.kernels.filter (keepsOther k h) = [] := by
      rw [← List.length_eq_zero]
      omega
    rw [deregisterImpl_erase_eq w.d n k h e hent (by omega) hdai1 hsch hker]
    have hDefZero : ∀ u ∈ w.live.erase (Token.implTok n k h), defFor n u = false := by
      intro u hu
      by_contra hc
      have hc2 : defFor n u = true := by
        cases hdf : defFor n u
        · exact absurd hdf hc
        · rfl
      have hposx : 0 < (w.live.filter (defFor n)).length := by
        rw [filter_length_pos_iff]
        exact ⟨u, List.mem_of_mem_erase hu, hc2⟩
      omega
    have hImplZero : ∀ u ∈ w.live.erase (Token.implTok n k h), implFor n u = false := by
      have hlenl := length_filter_erase (implFor n) (Token.implTok n k h) (by simp) w.live ht
      intro u hu
      by_contra hc
      have hc2 : implFor n u = true := by
        cases hdf : implFor n u
        · exact absurd hdf hc
        · rfl
      have hposx : 0 < ((w.live.erase (Token.implTok n k h)).filter (implFor n)).length := by
        rw [filter_length_pos_iff]
        exact ⟨u, hu, hc2⟩
      omega
    exact wf_eraseStep w n (Token.implTok n k h) ht hw (by simp) hDefZero hImplZero
  · rw [deregisterImpl_keep_eq w.d n k h e hent (by omega) hdai1,
      updateEntry_comp w.d n
        (fun x => { x with kernels := x.kernels.filter (keepsOther k h) })
        (fun x => { x with def_and_impl_count := x.def_and_impl_count - 1 })
        (fun x => rfl)]
    exact wf_implRelStep w n k h e _ hw hent ht (fun x => rfl) rfl rfl rfl rfl rfl
      (by omega)

/-- Releasing a fallback token preserves the invariant. -/
theorem wf_releaseFb (w : World) (k : DispatchKey) (hw : WF w)
    (ht : Token.fbTok k ∈ w.live) : WF (applyRelease w (Token.fbTok k)) := by
  have hlk : ∃ kern0, fallbackLookup w.d.backendFallbackKernels k = some kern0 := by
    have hfb := hw.fb_tok k
    rw [decide_eq_true ht] at hfb
    exact Option.isSome_iff_exists.mp hfb
  rcases hlk with ⟨kern0, hlk⟩
  have hnotin : ¬ Token.fbTok k ∈ w.live.erase (Token.fbTok k) := by
    have hcount := hw.fb_unique k
    have h1 := List.one_le_count_iff.mpr ht
    intro hc
    have h2 := List.one_le_count_iff.mpr hc
    rw [List.count_erase_self] at h2
    omega
  show WF { d := (w.d.deregisterFallback_ k).2, live := w.live.erase (Token.fbTok k) }
  rw [deregisterFallback_found_eq w.d k kern0 hlk]
  constructor
  case lookup_eq => exact hw.lookup_eq
  case names_nodup => exact hw.names_nodup
  case def_live =>
    intro x hx
    show x.def_count = ((w.live.erase (Token.fbTok k)).filter (defFor x.name)).length
    rw [filter_erase_not _ _ (by simp)]
    exact hw.def_live x hx
  case impl_live =>
    intro x hx
    show x.kernels.length = ((w.live.erase (Token.fbTok k)).filter (implFor x.name)).length
    rw [filter_erase_not _ _ (by simp)]
    exact hw.impl_live x hx
  case dai_eq => exact hw.dai_eq
  case dai_pos => exact hw.dai_pos
  case schema_iff => exact hw.schema_iff
  case schema_name => exact hw.schema_name
  case no_entry =>
    intro m hm u hu
    exact hw.no_entry m hm u (List.mem_of_mem_erase hu)
  case handles_nodup => exact hw.handles_nodup
  case handles_lt => exact hw.handles_lt
  case tok_kernel =>
    intro m k2 h2 hmem
    exact hw.tok_kernel m k2 h2 (List.mem_of_mem_erase hmem)
  case impl_unique =>
    intro m k2 h2
    exact le_trans (count_erase_le _ _ _) (hw.impl_unique m k2 h2)
  case fb_keys_nodup =>
    refine List.Nodup.sublist ?_ hw.fb_keys_nodup
    exact List.Sublist.map _ (List.filter_sublist _)
  case fb_tok =>
    intro k2
    by_cases hk2 : k2 = k
    · subst hk2
      rw [fallbackLookup_filter_self]
      simp [hnotin]
    · rw [fallbackLookup_filter_ne hk2, hw.fb_tok k2]
      have hiff : (Token.fbTok k2 ∈ w.live.erase (Token.fbTok k))
          ↔ Token.fbTok k2 ∈ w.live :=
        List.mem_erase_of_ne (by simp; exact fun hc => hk2 hc)
      simp only [hiff]
  case fb_unique =>
    intro k2
    exact le_trans (count_erase_le _ _ _) (hw.fb_unique k2)
  case fb_inv =>
    intro k2 hk2
    have hk2k : ¬ k2 = k := by
      intro hc
      subst hc
      exact hk2 (mem_keySetAdd_self _ _)
    have hk2old : ¬ k2 ∈ w.d.backendsWithoutFallthrough := by
      intro hc
      exact hk2 (mem_keySetAdd_of_mem hc)
    rcases hw.fb_inv k2 hk2old with ⟨kern2, hlk2, hft2⟩
    exact ⟨kern2, by rw [fallbackLookup_filter_ne hk2k]; exact hlk2, hft2⟩

/-- Releasing any live token preserves the invariant. -/
theorem wf_release (w : World) (t : Token) (ht : t ∈ w.live) (hw : WF w) :
    WF (applyRelease w t) := by
  cases t with
  | defTok n => exact wf_releaseDef w n hw ht
  | implTok n k h => exact wf_releaseImpl w n k h hw ht
  | fbTok k => exact wf_releaseFb w k hw ht

/-- Every step of the trace semantics preserves the invariant. -/
theorem wf_step {w w2 : World} (hw : WF w) (hs : WStep w w2) : WF w2 := by
  cases hs with
  | regDef schema => exact wf_regDef w schema hw
  | regImpl n k kern isch dbg => exact wf_regImpl w n k kern isch dbg hw
  | regFb k kern => exact wf_regFb w k kern hw
  | release t h => exact wf_release w t h hw
  | addL => exact wf_addL w hw

/-- Every world reachable by balanced single-release operation sequences
satisfies the invariant. -/
theorem wf_reachable {w : World} (hw : ReachableW w) : WF w := by
  induction hw with
  | refl => exact wf_empty
  | tail hab hbc ih => exact wf_step ih hbc

/-! ## Auxiliary characterizations used by the claim theorems -/

theorem checkSchema_char (s1 s2 : FunctionSchema) (hstruct : s1.structEq s2 = true) :
    checkSchemaCompatibility s1 s2 =
      if s2.isDefaultAliasAnalysisKind = true ∨ s1.aliasAnalysis = s2.aliasAnalysis
      then none else some DispatchError.aliasConflict := by
  unfold checkSchemaCompatibility
  by_cases h2 : s2.isDefaultAliasAnalysisKind = true <;>
    by_cases h3 : s1.isDefaultAliasAnalysisKind = true <;>
      by_cases h4 : s1.aliasAnalysis = s2.aliasAnalysis <;>
        simp [hstruct, h2, h3, h4]

theorem registerDef_noschema_eq (d : Dispatcher) (s : FunctionSchema)
    (e : OperatorDef)
    (hfo : d.findOperatorByName s.op_name = some s.op_name)
    (hent : d.entryFor s.op_name = some e) (hdc : ¬ e.def_count = 0)
    (hsch : e.schema = none) :
    d.registerDef s = (Except.error DispatchError.internalAssert, d) := by
  have hford := findOrRegisterName_of_some hfo
  unfold Dispatcher.registerDef
  rw [show s.operator_name = s.op_name from rfl]
  simp only [hford, hent]
  rw [if_neg hdc]
  simp only [hsch]

theorem map_const_nil_ok (r : Except DispatchError Unit) (evs : List Notification)
    (hr : Except.map (fun _ => ([] : List Notification)) r = Except.ok evs) :
    evs = [] := by
  cases r with
  | error e => simp [Except.map] at hr
  | ok u =>
    simp [Except.map] at hr
    exact hr

theorem fo_of_entry {d : Dispatcher} {n : OperatorName} {e : OperatorDef}
    (hlk : d.operatorLookupTable = d.operators.map (fun x => x.name))
    (hent : d.entryFor n = some e) :
    d.findOperatorByName n = some n := by
  rw [findOp_eq_some_iff, hlk]
  exact List.mem_map.mpr ⟨e, (entryFor_mem hent).1, (entryFor_mem hent).2⟩

theorem fo_of_no_entry {d : Dispatcher} {n : OperatorName}
    (hlk : d.operatorLookupTable = d.operators.map (fun x => x.name))
    (hent : d.entryFor n = none) :
    d.findOperatorByName n = none := by
  rw [findOp_eq_none_iff, hlk]
  intro hmem
  rcases List.mem_map.mp hmem with ⟨e0, he0, hne0⟩
  exact entryFor_eq_none_iff.mp hent e0 he0 hne0

theorem deregFb_bwf (d : Dispatcher) (k : DispatchKey) :
    (d.deregisterFallback_ k).2.backendsWithoutFallthrough
      = keySetAdd d.backendsWithoutFallthrough k := by
  unfold Dispatcher.deregisterFallback_
  cases hr : removeKernelIfExists d.backendFallbackKernels k with
  | mk result table1 =>
    cases result with
    | REMOVED_KERNEL => simp
    | KERNEL_NOT_REGISTERED => simp

/-! ## Sample values used by the witnesses -/

def sampleName : OperatorName :=
  { name := "aten::add", overload_name := "" }

def sampleName2 : OperatorName :=
  { name := "aten::mul", overload_name := "" }

def sampleSchema : FunctionSchema :=
  { op_name := sampleName, signature := "(Tensor a, Tensor b) -> Tensor",
    aliasKind := none }

def sampleSchemaPure : FunctionSchema :=
  { op_name := sampleName, signature := "(Tensor a, Tensor b) -> Tensor",
    aliasKind := some AliasAnalysisKind.PURE_FUNCTION }

def sampleKernel : KernelFunction :=
  { id := 7, fallthrough_flag := false }

def fallthroughKernel : KernelFunction :=
  { id := 3, fallthrough_flag := true }

def sampleDispatcher : Dispatcher :=
  (Dispatcher.empty.registerDef sampleSchema).2

def sampleDispatcher2 : Dispatcher :=
  (sampleDispatcher.registerDef sampleSchema).2

def sampleWorld : World :=
  applyRegDef World.empty sampleSchema

/-! ## Claim theorems -/

/-- C1, counterexample to the claim as stated: after a definition whose schema
carries the default alias-analysis marker is live, a second `registerDef` with
a structurally equal schema that specifies the concrete kind `PURE_FUNCTION` is
*rejected* with an alias-analysis conflict — not "accepted and adopted going
forward" as the claim states. -/
theorem C1_counterexample :
    ((((Dispatcher.empty.registerDef
        { op_name := { name := "aten::add", overload_name := "" },
          signature := "(Tensor a, Tensor b) -> Tensor",
          aliasKind := none }).2).registerDef
        { op_name := { name := "aten::add", overload_name := "" },
          signature := "(Tensor a, Tensor b) -> Tensor",
          aliasKind := some AliasAnalysisKind.PURE_FUNCTION }).1
      = Except.error DispatchError.aliasConflict)
    ∧ ((((Dispatcher.empty.registerDef
        { op_name := { name := "aten::add", overload_name := "" },
          signature := "(Tensor a, Tensor b) -> Tensor",
          aliasKind := none }).2).registerDef
        { op_name := { name := "aten::add", overload_name := "" },
          signature := "(Tensor a, Tensor b) -> Tensor",
          aliasKind := some AliasAnalysisKind.PURE_FUNCTION }).2.hasSchema
        { name := "aten::add", overload_name := "" } = true) := by
  constructor
  · decide
  · decide

/-- C1 (amended): on a second `registerDef` with a structurally equal schema
over a live definition, (i) a new schema carrying the default alias-analysis
marker is silently accepted, and acceptance holds exactly when the new schema
is default *or* the two schemas' alias-analysis values coincide — so a concrete
kind registered after a default-kind schema is rejected unless it equals the
value the default resolves to, and two concrete kinds succeed exactly when
equal; (ii) in every outcome the stored schema is never replaced (no kind is
"adopted going forward"); (iii) a rejection is an alias-analysis-conflict error
that leaves the registry state exactly as before. -/
theorem C1_second_registration_alias_rule (d : Dispatcher) (s2 : FunctionSchema)
    (e : OperatorDef) (s1 : FunctionSchema)
    (hlk : d.operatorLookupTable = d.operators.map (fun x => x.name))
    (hent : d.entryFor s2.op_name = some e)
    (hdc : ¬ e.def_count = 0)
    (hsch : e.schema = some s1)
    (hstruct : s1.structEq s2 = true) :
    ((∃ r, (d.registerDef s2).1 = Except.ok r) ↔
      (s2.isDefaultAliasAnalysisKind = true ∨ s1.aliasAnalysis = s2.aliasAnalysis))
    ∧ (((d.registerDef s2).2.entryFor s2.op_name).map (fun x => x.schema)
        = some (some s1))
    ∧ (¬ (s2.isDefaultAliasAnalysisKind = true ∨ s1.aliasAnalysis = s2.aliasAnalysis) →
        (d.registerDef s2).1 = Except.error DispatchError.aliasConflict
        ∧ (d.registerDef s2).2 = d) := by
  have hfo := fo_of_entry hlk hent
  have hchar := checkSchema_char s1 s2 hstruct
  by_cases hcond : s2.isDefaultAliasAnalysisKind = true ∨ s1.aliasAnalysis = s2.aliasAnalysis
  · rw [if_pos hcond] at hchar
    have heq := registerDef_inc_eq d s2 e s1 hfo hent hdc hsch hchar
    refine ⟨?_, ?_, ?_⟩
    · rw [heq]
      constructor
      · intro _
        exact hcond
      · intro _
        exact ⟨([], Token.defTok s2.op_name), rfl⟩
    · rw [heq]
      show ((d.updateEntry s2.op_name _).entryFor s2.op_name).map (fun x => x.schema)
        = some (some s1)
      rw [entryFor_updateEntry_self
        (f := fun x => { x with def_count := x.def_count + 1,
                                def_and_impl_count := x.def_and_impl_count + 1 })
        (fun x => rfl), hent]
      simp [hsch]
    · intro hc
      exact absurd hcond hc
  · rw [if_neg hcond] at hchar
    have heq := registerDef_err_eq d s2 e s1 DispatchError.aliasConflict
      hfo hent hdc hsch hchar
    refine ⟨?_, ?_, ?_⟩
    · rw [heq]
      constructor
      · rintro ⟨r, hr⟩
        exact absurd hr (by simp)
      · intro hc
        exact absurd hc hcond
    · rw [heq, hent]
      simp [hsch]
    · intro _
      rw [heq]
      exact ⟨rfl, rfl⟩

/-- C1 witness: the amended rule applied to a concrete registry holding one
live default-kind definition and a second structurally equal schema with the
concrete kind `PURE_FUNCTION`. -/
theorem C1_second_registration_alias_rule_witness :
    (sampleDispatcher.operatorLookupTable
        = sampleDispatcher.operators.map (fun x => x.name))
    ∧ (sampleDispatcher.entryFor sampleSchemaPure.op_name =
        some { name := sampleName, schema := some sampleSchema, kernels := [],
               nextHandle := 0, def_count := 1, def_and_impl_count := 1 })
    ∧ (((∃ r, (sampleDispatcher.registerDef sampleSchemaPure).1 = Except.ok r) ↔
        (sampleSchemaPure.isDefaultAliasAnalysisKind = true
          ∨ sampleSchema.aliasAnalysis = sampleSchemaPure.aliasAnalysis))
      ∧ (((sampleDispatcher.registerDef sampleSchemaPure).2.entryFor
            sampleSchemaPure.op_name).map (fun x => x.schema)
          = some (some sampleSchema))
      ∧ (¬ (sampleSchemaPure.isDefaultAliasAnalysisKind = true
            ∨ sampleSchema.aliasAnalysis = sampleSchemaPure.aliasAnalysis) →
          (sampleDispatcher.registerDef sampleSchemaPure).1
            = Except.error DispatchError.aliasConflict
          ∧ (sampleDispatcher.registerDef sampleSchemaPure).2 = sampleDispatcher)) :=
  ⟨by decide, by decide,
   C1_second_registration_alias_rule sampleDispatcher sampleSchemaPure
     { name := sampleName, schema := some sampleSchema, kernels := [],
       nextHandle := 0, def_count := 1, def_and_impl_count := 1 }
     sampleSchema (by decide) (by decide) (by decide) (by decide) (by decide)⟩

/-- C2: a registration call rejected with a caller-visible error — a schema or
alias-analysis conflict in `registerDef`, or a duplicate fallback in
`registerFallback` — leaves the registry state (hence the entry's schema and
counters, the fallback table, and `backendsWithoutFallthrough`) exactly as it
was before the call. -/
theorem C2_rejected_registration_state_unchanged (d : Dispatcher)
    (s : FunctionSchema) (k : DispatchKey) (kern : KernelFunction)
    (err1 err2 : DispatchError)
    (hlk : d.operatorLookupTable = d.operators.map (fun x => x.name)) :
    ((d.registerDef s).1 = Except.error err1 → err1.callerVisible = true →
      (d.registerDef s).2 = d)
    ∧ ((d.registerFallback k kern).1 = Except.error err2 → err2.callerVisible = true →
      (d.registerFallback k kern).2 = d) := by
  constructor
  · intro herr hvis
    cases hent : d.entryFor s.op_name with
    | none =>
      exfalso
      have h2 := entryFor_eq_none_iff.mp hent
      have hfo := fo_of_no_entry hlk hent
      rw [registerDef_new_eq d s h2 hfo] at herr
      exact absurd herr (by simp)
    | some e =>
      have hfo := fo_of_entry hlk hent
      by_cases hdc : e.def_count = 0
      · exfalso
        rw [registerDef_attach_eq d s e hfo hent hdc] at herr
        exact absurd herr (by simp)
      · cases hsch : e.schema with
        | none =>
          exfalso
          rw [registerDef_noschema_eq d s e hfo hent hdc hsch] at herr
          injection herr with h3
          rw [← h3] at hvis
          exact absurd hvis (by simp [DispatchError.callerVisible])
        | some ex =>
          cases hchk : checkSchemaCompatibility ex s with
          | none =>
            exfalso
            rw [registerDef_inc_eq d s e ex hfo hent hdc hsch hchk] at herr
            exact absurd herr (by simp)
          | some errx =>
            rw [registerDef_err_eq d s e ex errx hfo hent hdc hsch hchk]
  · intro herr hvis
    cases hlf : fallbackLookup d.backendFallbackKernels k with
    | none =>
      exfalso
      rw [registerFallback_new_eq d k kern hlf] at herr
      exact absurd herr (by simp)
    | some kern0 =>
      rw [registerFallback_dup_eq d k kern kern0 hlf]

/-- C2 witness: a concrete alias-analysis conflict and a concrete duplicate
fallback both leave the concrete registry exactly unchanged. -/
theorem C2_rejected_registration_state_unchanged_witness :
    (sampleDispatcher.operatorLookupTable
        = sampleDispatcher.operators.map (fun x => x.name))
    ∧ (((sampleDispatcher.registerDef sampleSchemaPure).1
          = Except.error DispatchError.aliasConflict →
        DispatchError.aliasConflict.callerVisible = true →
        (sampleDispatcher.registerDef sampleSchemaPure).2 = sampleDispatcher)
      ∧ ((sampleDispatcher.registerFallback DispatchKey.Autograd sampleKernel).1
          = Except.error DispatchError.duplicateFallback →
        DispatchError.duplicateFallback.callerVisible = true →
        (sampleDispatcher.registerFallback DispatchKey.Autograd sampleKernel).2
          = sampleDispatcher)) :=
  ⟨by decide,
   C2_rejected_registration_state_unchanged sampleDispatcher sampleSchemaPure
     DispatchKey.Autograd sampleKernel DispatchError.aliasConflict
     DispatchError.duplicateFallback (by decide)⟩

/-- C3: in every reachable world, an operator name is findable through the
lookup index exactly while at least one token (of either kind) obtained for
that name is still live — so after every token for the name is released,
`findOperatorByName` returns absent — and the lookup index agrees with the
owning collection. -/
theorem C3_entry_lives_exactly_with_tokens (w : World) (hw : ReachableW w)
    (n : OperatorName) :
    ((w.d.findOperatorByName n).isSome = true ↔ ∃ t ∈ w.live, tokFor n t = true)
    ∧ ((w.d.findOperatorByName n).isSome = true ↔ (w.d.entryFor n).isSome = true) := by
  have hwf := wf_reachable hw
  have hsecond : (w.d.findOperatorByName n).isSome = true
      ↔ (w.d.entryFor n).isSome = true := by
    rw [findOp_isSome_iff, hwf.lookup_eq, entryFor_isSome_iff]
    constructor
    · intro hmem
      rcases List.mem_map.mp hmem with ⟨e, he, hne⟩
      exact ⟨e, he, hne⟩
    · rintro ⟨e, he, hne⟩
      exact List.mem_map.mpr ⟨e, he, hne⟩
  refine ⟨⟨?_, ?_⟩, hsecond⟩
  · intro hfind
    have hent := hsecond.mp hfind
    cases hentc : w.d.entryFor n with
    | none =>
      rw [hentc] at hent
      simp at hent
    | some e =>
      have heme := (entryFor_mem hentc).1
      have hene := (entryFor_mem hentc).2
      have hdai := hwf.dai_eq e heme
      have hpos := hwf.dai_pos e heme
      have hdl := hwf.def_live e heme
      have hil := hwf.impl_live e heme
      rw [hene] at hdl hil
      unfold liveDefCount at hdl
      unfold liveImplCount at hil
      by_cases hdz : e.def_count = 0
      · have hposl : 0 < (w.live.filter (implFor n)).length := by omega
        rcases (filter_length_pos_iff _ _).mp hposl with ⟨t, htl, htok⟩
        exact ⟨t, htl, by simp [tokFor, htok]⟩
      · have hposl : 0 < (w.live.filter (defFor n)).length := by omega
        rcases (filter_length_pos_iff _ _).mp hposl with ⟨t, htl, htok⟩
        exact ⟨t, htl, by simp [tokFor, htok]⟩
  · rintro ⟨t, htl, htok⟩
    rw [hsecond]
    cases hentc : w.d.entryFor n with
    | some e => simp
    | none =>
      have hz := hwf.no_entry n hentc t htl
      rw [hz] at htok
      exact absurd htok (by simp)

/-- C3 witness: in the concrete world holding one live definition token for
`aten::add`, the operator is findable; the theorem's equivalences hold there. -/
theorem C3_entry_lives_exactly_with_tokens_witness :
    ReachableW sampleWorld
    ∧ (((sampleWorld.d.findOperatorByName sampleName).isSome = true ↔
        ∃ t ∈ sampleWorld.live, tokFor sampleName t = true)
      ∧ ((sampleWorld.d.findOperatorByName sampleName).isSome = true ↔
        (sampleWorld.d.entryFor sampleName).isSome = true)) :=
  ⟨Relation.ReflTransGen.single (WStep.regDef World.empty sampleSchema),
   C3_entry_lives_exactly_with_tokens sampleWorld
     (Relation.ReflTransGen.single (WStep.regDef World.empty sampleSchema))
     sampleName⟩

/-- C4: `findSchema` returns a handle exactly when the operator entry exists
and has an attached schema; and after a `registerImpl` for a name with no
entry, `findOperatorByName` succeeds while `findSchema` returns absent,
distinguishing the impl-only state from an unknown operator. -/
theorem C4_findSchema_characterization (d : Dispatcher) (n : OperatorName)
    (k : Option DispatchKey) (kern : KernelFunction) (isch : Option FunctionSchema)
    (dbg : String)
    (hlk : d.operatorLookupTable = d.operators.map (fun x => x.name))
    (hnd : (d.operators.map (fun x => x.name)).Nodup) :
    ((d.findSchema n).isSome = true ↔
      ∃ e ∈ d.operators, e.name = n ∧ e.schema.isSome = true)
    ∧ (d.entryFor n = none →
        (d.registerImpl n k kern isch dbg).2.findOperatorByName n = some n
        ∧ (d.registerImpl n k kern isch dbg).2.findSchema n = none) := by
  constructor
  · constructor
    · intro hfs
      unfold Dispatcher.findSchema at hfs
      cases hfo : d.findOperatorByName n with
      | none =>
        rw [hfo] at hfs
        simp at hfs
      | some h2 =>
        rw [hfo] at hfs
        have hn2 : h2 = n := by
          unfold Dispatcher.findOperatorByName at hfo
          split at hfo
          · injection hfo with hh
            exact hh.symm
          · exact Option.noConfusion hfo
        subst hn2
        by_cases hhs : d.hasSchema h2 = true
        · unfold Dispatcher.hasSchema at hhs
          cases hent : d.entryFor h2 with
          | none =>
            rw [hent] at hhs
            simp at hhs
          | some e =>
            rw [hent] at hhs
            exact ⟨e, (entryFor_mem hent).1, (entryFor_mem hent).2, hhs⟩
        · simp [hhs] at hfs
    · rintro ⟨e, he, hne, hsch⟩
      have hent := entryFor_of_mem hnd he hne
      have hfo := fo_of_entry hlk hent
      unfold Dispatcher.findSchema
      rw [hfo]
      have hhs : d.hasSchema n = true := by
        unfold Dispatcher.hasSchema
        rw [hent]
        exact hsch
      simp [hhs]
  · intro hent
    have h2 := entryFor_eq_none_iff.mp hent
    have hfo := fo_of_no_entry hlk hent
    rw [registerImpl_new_eq d n k kern isch dbg h2 hfo]
    have hself := entryFor_append_self (d := d)
      (x := { name := n, schema := none,
              kernels := [{ key := k, handle := 0, kernel := kern, debug := dbg }],
              nextHandle := 1, def_count := 0, def_and_impl_count := 1 }) h2 rfl
    have hmemN : n ∈ d.operatorLookupTable ++ [n] :=
      List.mem_append.mpr (Or.inr (by simp))
    constructor
    · show (if n ∈ d.operatorLookupTable ++ [n] then some n else none) = some n
      rw [if_pos hmemN]
    · unfold Dispatcher.findSchema Dispatcher.hasSchema
      show (match (if n ∈ d.operatorLookupTable ++ [n] then some n else none) with
        | some h2 => _
        | none => none) = none
      rw [if_pos hmemN]
      simp only [Dispatcher.entryFor, hself]
      rfl

/-- C4 witness: with one definition registered for `aten::add`, `findSchema`
characterizes attached schemas, and a kernel-only registration for `aten::mul`
is findable by name but schema-less. -/
theorem C4_findSchema_characterization_witness :
    (sampleDispatcher.operatorLookupTable
        = sampleDispatcher.operators.map (fun x => x.name))
    ∧ (sampleDispatcher.operators.map (fun x => x.name)).Nodup
    ∧ (((sampleDispatcher.findSchema sampleName2).isSome = true ↔
        ∃ e ∈ sampleDispatcher.operators, e.name = sampleName2 ∧ e.schema.isSome = true)
      ∧ (sampleDispatcher.entryFor sampleName2 = none →
          (sampleDispatcher.registerImpl sampleName2 (some DispatchKey.CPU)
            sampleKernel none "cpu kernel").2.findOperatorByName sampleName2
            = some sampleName2
          ∧ (sampleDispatcher.registerImpl sampleName2 (some DispatchKey.CPU)
            sampleKernel none "cpu kernel").2.findSchema sampleName2 = none)) :=
  ⟨by decide, by decide,
   C4_findSchema_characterization sampleDispatcher sampleName2
     (some DispatchKey.CPU) sampleKernel none "cpu kernel" (by decide) (by decide)⟩

/-- C5: in every reachable world every operator entry satisfies
`def_count ≤ def_and_impl_count`, and every one of the mutating operations
(the three registrations, any token release, and adding a listener) preserves
this inequality. -/
theorem C5_def_le_def_and_impl (w : World) (hw : ReachableW w) :
    (∀ e ∈ w.d.operators, e.def_count ≤ e.def_and_impl_count)
    ∧ (∀ w2, WStep w w2 → ∀ e ∈ w2.d.operators,
        e.def_count ≤ e.def_and_impl_count) := by
  have hwf := wf_reachable hw
  constructor
  · intro e he
    have := hwf.dai_eq e he
    omega
  · intro w2 hs e he
    have hwf2 := wf_step hwf hs
    have := hwf2.dai_eq e he
    omega

/-- C5 witness: the inequality and its preservation at the concrete reachable
world holding one live definition. -/
theorem C5_def_le_def_and_impl_witness :
    ReachableW sampleWorld
    ∧ ((∀ e ∈ sampleWorld.d.operators, e.def_count ≤ e.def_and_impl_count)
      ∧ (∀ w2, WStep sampleWorld w2 → ∀ e ∈ w2.d.operators,
          e.def_count ≤ e.def_and_impl_count)) :=
  ⟨Relation.ReflTransGen.single (WStep.regDef World.empty sampleSchema),
   C5_def_le_def_and_impl sampleWorld
     (Relation.ReflTransGen.single (WStep.regDef World.empty sampleSchema))⟩

/-- C6: releasing a definition token in a reachable world either keeps the
definition alive (def_count stays positive, no callbacks) or — exactly when
this was the last definition — invokes every registered listener, and every
such callback still observes the operator with its schema attached
(`sawSchema = true`) and findable through the index (`sawFindable = true`):
the listeners fire strictly before the schema is removed. -/
theorem C6_listeners_observe_operator_before_removal (w : World)
    (n : OperatorName) (hw : ReachableW w) (ht : Token.defTok n ∈ w.live) :
    ∃ e, w.d.entryFor n = some e ∧
      (w.d.deregisterDef_ n).1 = Except.ok
        (if e.def_count = 1 then
          w.d.listeners.map (fun l =>
            { listener := l, registered := false, opName := n,
              sawSchema := true, sawFindable := true })
        else []) := by
  have hwf := wf_reachable hw
  cases hent : w.d.entryFor n with
  | none =>
    exfalso
    have := hwf.no_entry n hent _ ht
    simp at this
  | some e =>
    refine ⟨e, rfl, ?_⟩
    have heme := (entryFor_mem hent).1
    have hene := (entryFor_mem hent).2
    have hdl := hwf.def_live e heme
    rw [hene] at hdl
    unfold liveDefCount at hdl
    have hd1 : 1 ≤ e.def_count := by
      have hpos : 0 < (w.live.filter (defFor n)).length := by
        rw [filter_length_pos_iff]
        exact ⟨_, ht, by simp⟩
      omega
    have hsome : e.schema.isSome = true := (hwf.schema_iff e heme).mpr (by omega)
    rcases Option.isSome_iff_exists.mp hsome with ⟨s, hs⟩
    have hsn : s.op_name = n := by
      rw [hwf.schema_name e heme s hs]
      exact hene
    have hdai := hwf.dai_eq e heme
    have hpos2 : 0 < e.def_count ∧ 0 < e.def_and_impl_count := ⟨by omega, by omega⟩
    have hmem : n ∈ w.d.operatorLookupTable := by
      rw [hwf.lookup_eq]
      exact List.mem_map.mpr ⟨e, heme, hene⟩
    by_cases hgt : e.def_count - 1 = 0
    · have hone : e.def_count = 1 := by omega
      by_cases hdai1 : e.def_and_impl_count - 1 = 0
      · have hil := hwf.impl_live e heme
        rw [hene] at hil
        unfold liveImplCount at hil
        have hker : e.kernels = [] := by
          rw [← List.length_eq_zero]
          omega
        rw [deregisterDef_zero_erase_eq w.d n e s hent hs hsn hmem hpos2 hgt hdai1 hker,
          if_pos hone]
      · rw [deregisterDef_zero_keep_eq w.d n e s hent hs hsn hmem hpos2 hgt hdai1,
          if_pos hone]
    · have hdai2 : ¬ e.def_and_impl_count - 1 = 0 := by omega
      rw [deregisterDef_many_eq w.d n e s hent hs hsn hpos2 hgt hdai2,
        if_neg (by omega)]

/-- C6 witness: in the concrete world holding the last definition token for
`aten::add`, its release reports one callback per listener, each having
observed the schema still attached and the operator still findable. -/
theorem C6_listeners_observe_operator_before_removal_witness :
    ReachableW sampleWorld
    ∧ Token.defTok sampleName ∈ sampleWorld.live
    ∧ ∃ e, sampleWorld.d.entryFor sampleName = some e ∧
        (sampleWorld.d.deregisterDef_ sampleName).1 = Except.ok
          (if e.def_count = 1 then
            sampleWorld.d.listeners.map (fun l =>
              { listener := l, registered := false, opName := sampleName,
                sawSchema := true, sawFindable := true })
          else []) :=
  ⟨Relation.ReflTransGen.single (WStep.regDef World.empty sampleSchema),
   by decide,
   C6_listeners_observe_operator_before_removal sampleWorld sampleName
     (Relation.ReflTransGen.single (WStep.regDef World.empty sampleSchema))
     (by decide)⟩

theorem length_filter_map {α β : Type} (f : α → β) (p : β → Bool) (l : List α) :
    ((l.map f).filter p).length = (l.filter (fun a => p (f a))).length := by
  induction l with
  | nil => rfl
  | cons a t ih =>
    simp only [List.map_cons, List.filter_cons]
    cases hp : p (f a) with
    | true => simp [hp, ih]
    | false => simp [hp, ih]

theorem nested_filter_len (p : OperatorDef → Bool) (n : OperatorName) :
    ∀ l : List OperatorDef, (l.map (fun x => x.name)).Nodup →
    ((l.filter p).filter (fun e => decide (e.name = n))).length
      = if ∃ e ∈ l, e.name = n ∧ p e = true then 1 else 0 := by
  intro l
  induction l with
  | nil =>
    intro _
    simp
  | cons a t ih =>
    intro hnd
    have hnd2 : (t.map (fun x => x.name)).Nodup :=
      (List.nodup_cons.mp (by simpa using hnd)).2
    have hna : ¬ a.name ∈ t.map (fun x => x.name) :=
      (List.nodup_cons.mp (by simpa using hnd)).1
    have htail0 : a.name = n →
        ((t.filter p).filter (fun e => decide (e.name = n))).length = 0 := by
      intro hn
      rw [ih hnd2, if_neg]
      rintro ⟨e, he, hen, hpe⟩
      exact hna (List.mem_map.mpr ⟨e, he, by rw [hen, hn]⟩)
    by_cases hp : p a = true
    · rw [List.filter_cons_of_pos hp]
      by_cases hn : a.name = n
      · rw [List.filter_cons_of_pos (by simpa using hn)]
        simp only [List.length_cons, htail0 hn]
        rw [if_pos ⟨a, List.mem_cons_self a t, hn, hp⟩]
      · rw [List.filter_cons_of_neg (by simpa using hn), ih hnd2]
        by_cases hex : ∃ e ∈ t, e.name = n ∧ p e = true
        · rw [if_pos hex, if_pos]
          rcases hex with ⟨e, he, hen, hpe⟩
          exact ⟨e, List.mem_cons_of_mem a he, hen, hpe⟩
        · rw [if_neg hex, if_neg]
          rintro ⟨e, he, hen, hpe⟩
          rcases List.mem_cons.mp he with heq | he2
          · exact hn (heq ▸ hen)
          · exact hex ⟨e, he2, hen, hpe⟩
    · rw [List.filter_cons_of_neg (by simpa using hp), ih hnd2]
      by_cases hex : ∃ e ∈ t, e.name = n ∧ p e = true
      · rw [if_pos hex, if_pos]
        rcases hex with ⟨e, he, hen, hpe⟩
        exact ⟨e, List.mem_cons_of_mem a he, hen, hpe⟩
      · rw [if_neg hex, if_neg]
        rintro ⟨e, he, hen, hpe⟩
        rcases List.mem_cons.mp he with heq | he2
        · exact hp (heq ▸ hpe)
        · exact hex ⟨e, he2, hen, hpe⟩

/-- C7: `addRegistrationListener` (i) appends the new listener to the active
list only after the replay, (ii) replays only to the new listener and only
`onOperatorRegistered` events, (iii) produces the replayed operator names in
registry iteration order, exactly the entries with `def_count > 0`, and (iv)
under distinct operator names, notifies the new listener exactly once per
currently defined operator and zero times for impl-only (`def_count = 0`) or
absent operators. -/
theorem C7_addListener_replays_defined_operators (d : Dispatcher)
    (hnd : (d.operators.map (fun x => x.name)).Nodup) :
    ((d.addRegistrationListener).2.listeners
        = d.listeners ++ [(d.addRegistrationListener).1.2])
    ∧ (∀ ev ∈ (d.addRegistrationListener).1.1,
        ev.listener = (d.addRegistrationListener).1.2 ∧ ev.registered = true)
    ∧ ((d.addRegistrationListener).1.1.map (fun ev => ev.opName)
        = (d.operators.filter (fun e => decide (0 < e.def_count))).map
            (fun e => e.name))
    ∧ (∀ n : OperatorName,
        ((d.addRegistrationListener).1.1.filter
            (fun ev => decide (ev.opName = n))).length
          = if ∃ e ∈ d.operators, e.name = n ∧ 0 < e.def_count then 1 else 0) := by
  refine ⟨rfl, ?_, ?_, ?_⟩
  · intro ev hev
    have hev2 : ev ∈ (d.operators.filter (fun e => decide (0 < e.def_count))).map
        (fun e => mkNotif d.nextListenerId true e.name d) := hev
    rcases List.mem_map.mp hev2 with ⟨e, he, heq⟩
    refine ⟨?_, ?_⟩
    · rw [← heq]
      rfl
    · rw [← heq]
      rfl
  · show ((d.operators.filter (fun e => decide (0 < e.def_count))).map
        (fun e => mkNotif d.nextListenerId true e.name d)).map (fun ev => ev.opName)
      = _
    rw [List.map_map]
    rfl
  · intro n
    show (((d.operators.filter (fun e => decide (0 < e.def_count))).map
        (fun e => mkNotif d.nextListenerId true e.name d)).filter
          (fun ev => decide (ev.opName = n))).length = _
    simp only [length_filter_map, mkNotif]
    rw [nested_filter_len (fun e => decide (0 < e.def_count)) n d.operators hnd]
    simp

/-- C7 witness: adding a listener to the registry holding the defined operator
`aten::add` replays exactly one notification, targeted at the new listener. -/
theorem C7_addListener_replays_defined_operators_witness :
    (sampleDispatcher.operators.map (fun x => x.name)).Nodup
    ∧ (((sampleDispatcher.addRegistrationListener).2.listeners
        = sampleDispatcher.listeners ++ [(sampleDispatcher.addRegistrationListener).1.2])
      ∧ (∀ ev ∈ (sampleDispatcher.addRegistrationListener).1.1,
          ev.listener = (sampleDispatcher.addRegistrationListener).1.2
          ∧ ev.registered = true)
      ∧ ((sampleDispatcher.addRegistrationListener).1.1.map (fun ev => ev.opName)
          = (sampleDispatcher.operators.filter
              (fun e => decide (0 < e.def_count))).map (fun e => e.name))
      ∧ (∀ n : OperatorName,
          ((sampleDispatcher.addRegistrationListener).1.1.filter
              (fun ev => decide (ev.opName = n))).length
            = if ∃ e ∈ sampleDispatcher.operators, e.name = n ∧ 0 < e.def_count
              then 1 else 0)) :=
  ⟨by decide,
   C7_addListener_replays_defined_operators sampleDispatcher (by decide)⟩

/-- C8: in a reachable world, every backend tag missing from
`backendsWithoutFallthrough` has a trivial pass-through kernel in the fallback
table; `checkInvariants` succeeds there, and for an arbitrary registry it
succeeds exactly when that condition holds for every non-`Undefined` tag; and
in the concrete scenario, a successful registration of a pass-through fallback
for `Autograd` leaves the tag absent from the set while releasing that
fallback's token makes it present again. -/
theorem C8_fallthrough_set_invariant (w : World) (hw : ReachableW w)
    (kern : KernelFunction) (hft : kern.isFallthrough = true) :
    (∀ k, keySetHas w.d.backendsWithoutFallthrough k = false →
        ∃ kf, fallbackLookup w.d.backendFallbackKernels k = some kf
          ∧ kf.isFallthrough = true)
    ∧ w.d.checkInvariants = true
    ∧ (∀ d2 : Dispatcher, d2.checkInvariants = true ↔
        ∀ k ∈ nonUndefinedKeys, keySetHas d2.backendsWithoutFallthrough k = false →
          ∃ kf, fallbackLookup d2.backendFallbackKernels k = some kf
            ∧ kf.isFallthrough = true)
    ∧ (∀ t d2, w.d.registerFallback DispatchKey.Autograd kern = (Except.ok t, d2) →
        keySetHas d2.backendsWithoutFallthrough DispatchKey.Autograd = false
        ∧ keySetHas
            ((d2.deregisterFallback_ DispatchKey.Autograd).2.backendsWithoutFallthrough)
            DispatchKey.Autograd = true) := by
  have hwf := wf_reachable hw
  have hfb : ∀ k, keySetHas w.d.backendsWithoutFallthrough k = false →
      ∃ kf, fallbackLookup w.d.backendFallbackKernels k = some kf
        ∧ kf.isFallthrough = true := by
    intro k hk
    refine hwf.fb_inv k ?_
    intro hmem
    rw [show keySetHas w.d.backendsWithoutFallthrough k = true
      from decide_eq_true hmem] at hk
    exact Bool.noConfusion hk
  have hiff : ∀ d2 : Dispatcher, d2.checkInvariants = true ↔
      ∀ k ∈ nonUndefinedKeys, keySetHas d2.backendsWithoutFallthrough k = false →
        ∃ kf, fallbackLookup d2.backendFallbackKernels k = some kf
          ∧ kf.isFallthrough = true := by
    intro d2
    unfold Dispatcher.checkInvariants
    simp only [Bool.and_eq_true, List.all_eq_true]
    constructor
    · rintro ⟨h1, h2⟩ k hk hno
      have hb := h2 k hk
      rw [if_neg (by rw [hno]; exact Bool.false_ne_true)] at hb
      cases hlf : fallbackLookup d2.backendFallbackKernels k with
      | none =>
        rw [hlf] at hb
        exact Bool.noConfusion hb
      | some kf =>
        rw [hlf] at hb
        exact ⟨kf, rfl, hb⟩
    · intro hp
      refine ⟨fun e he => rfl, fun k hk => ?_⟩
      cases hhas : keySetHas d2.backendsWithoutFallthrough k with
      | true => simp
      | false =>
        rw [if_neg Bool.false_ne_true]
        rcases hp k hk hhas with ⟨kf, hlf, hkf⟩
        rw [hlf]
        exact hkf
  refine ⟨hfb, (hiff w.d).mpr (fun k hk hno => hfb k hno), hiff, ?_⟩
  intro t d2 hreg
  cases hlf : fallbackLookup w.d.backendFallbackKernels DispatchKey.Autograd with
  | some k0 =>
    rw [registerFallback_dup_eq w.d DispatchKey.Autograd kern k0 hlf] at hreg
    injection hreg with h1 h2
    exact Except.noConfusion h1
  | none =>
    rw [registerFallback_new_eq w.d DispatchKey.Autograd kern hlf] at hreg
    injection hreg with h1 h2
    rw [← h2]
    constructor
    · show keySetHas (if kern.isFallthrough = true then
          keySetRemove w.d.backendsWithoutFallthrough DispatchKey.Autograd
        else w.d.backendsWithoutFallthrough) DispatchKey.Autograd = false
      rw [if_pos hft]
      simp [keySetHas, keySetRemove]
    · rw [deregFb_bwf]
      exact decide_eq_true (mem_keySetAdd_self _ _)

/-- C8 witness: the theorem applied in the concrete reachable world holding one
definition, with the pass-through kernel registered for `Autograd`. -/
theorem C8_fallthrough_set_invariant_witness :
    ReachableW sampleWorld
    ∧ fallthroughKernel.isFallthrough = true
    ∧ ((∀ k, keySetHas sampleWorld.d.backendsWithoutFallthrough k = false →
        ∃ kf, fallbackLookup sampleWorld.d.backendFallbackKernels k = some kf
          ∧ kf.isFallthrough = true)
      ∧ sampleWorld.d.checkInvariants = true
      ∧ (∀ d2 : Dispatcher, d2.checkInvariants = true ↔
          ∀ k ∈ nonUndefinedKeys, keySetHas d2.backendsWithoutFallthrough k = false →
            ∃ kf, fallbackLookup d2.backendFallbackKernels k = some kf
              ∧ kf.isFallthrough = true)
      ∧ (∀ t d2, sampleWorld.d.registerFallback DispatchKey.Autograd fallthroughKernel
            = (Except.ok t, d2) →
          keySetHas d2.backendsWithoutFallthrough DispatchKey.Autograd = false
          ∧ keySetHas
              ((d2.deregisterFallback_ DispatchKey.Autograd).2.backendsWithoutFallthrough)
              DispatchKey.Autograd = true)) :=
  ⟨Relation.ReflTransGen.single (WStep.regDef World.empty sampleSchema),
   by decide,
   C8_fallthrough_set_invariant sampleWorld
     (Relation.ReflTransGen.single (WStep.regDef World.empty sampleSchema))
     fallthroughKernel (by decide)⟩

/-- The entry `sampleDispatcher2` holds for `aten::add`: schema attached, two
live definitions. -/
def sampleEntry2 : OperatorDef :=
  { name := sampleName, schema := some sampleSchema, kernels := [],
    nextHandle := 0, def_count := 2, def_and_impl_count := 2 }

/-- C9 (frame): `registerImpl` returns without invoking any listener callback;
a successful `deregisterImpl_` invokes none; a successful `registerDef` over an
entry whose `def_count` is already positive invokes none; and releasing one of
several definition tokens (`def_count` stays positive) invokes none — listener
notifications fire only on the zero-to-one and one-to-zero transitions of
`def_count`. -/
theorem C9_impl_activity_invisible_to_listeners (d : Dispatcher)
    (n n2 : OperatorName) (k : Option DispatchKey) (kern : KernelFunction)
    (isch : Option FunctionSchema) (dbg : String) (h : Nat)
    (s s2 : FunctionSchema) (e e2 : OperatorDef)
    (hfo : d.findOperatorByName s.op_name = some s.op_name)
    (hent : d.entryFor s.op_name = some e) (hdc : ¬ e.def_count = 0)
    (hent2 : d.entryFor n2 = some e2) (hsch2 : e2.schema = some s2)
    (hsn2 : s2.op_name = n2) (hdai : e2.def_count ≤ e2.def_and_impl_count)
    (hmany : 1 < e2.def_count) :
    ((d.registerImpl n k kern isch dbg).1.1 = [])
    ∧ (∀ evs, (d.deregisterImpl_ n k h).1 = Except.ok evs → evs = [])
    ∧ (∀ r, (d.registerDef s).1 = Except.ok r → r.1 = [])
    ∧ (d.deregisterDef_ n2).1 = Except.ok [] := by
  refine ⟨rfl, ?_, ?_, ?_⟩
  · intro evs hevs
    unfold Dispatcher.deregisterImpl_ at hevs
    split at hevs
    · exact Except.noConfusion (show (Except.error DispatchError.internalAssert
        : Except DispatchError (List Notification)) = Except.ok evs from hevs)
    · split at hevs
      · exact map_const_nil_ok _ _ hevs
      · exact Except.noConfusion (show (Except.error DispatchError.internalAssert
          : Except DispatchError (List Notification)) = Except.ok evs from hevs)
  · intro r hr
    by_cases hschc : ∃ ex, e.schema = some ex
    · rcases hschc with ⟨ex, hex⟩
      cases hchk : checkSchemaCompatibility ex s with
      | some err =>
        rw [registerDef_err_eq d s e ex err hfo hent hdc hex hchk] at hr
        exact Except.noConfusion (show (Except.error err
          : Except DispatchError (List Notification × Token)) = Except.ok r from hr)
      | none =>
        rw [registerDef_inc_eq d s e ex hfo hent hdc hex hchk] at hr
        have hr2 : Except.ok (([] : List Notification), Token.defTok s.op_name)
            = Except.ok r := hr
        injection hr2 with hr3
        rw [← hr3]
    · have hex : e.schema = none := by
        cases hscc : e.schema with
        | none => rfl
        | some x => exact absurd ⟨x, hscc⟩ hschc
      rw [registerDef_noschema_eq d s e hfo hent hdc hex] at hr
      exact Except.noConfusion (show (Except.error DispatchError.internalAssert
        : Except DispatchError (List Notification × Token)) = Except.ok r from hr)
  · rw [deregisterDef_many_eq d n2 e2 s2 hent2 hsch2 hsn2
      ⟨by omega, by omega⟩ (by omega) (by omega)]

/-- C9 witness: in the registry holding two live definitions of `aten::add`, a
kernel registration, a successful kernel release, a third schema registration,
and the release of one of the two definition tokens all fire no callbacks. -/
theorem C9_impl_activity_invisible_to_listeners_witness :
    (sampleDispatcher2.findOperatorByName sampleSchema.op_name
        = some sampleSchema.op_name)
    ∧ sampleDispatcher2.entryFor sampleSchema.op_name = some sampleEntry2
    ∧ ¬ sampleEntry2.def_count = 0
    ∧ sampleDispatcher2.entryFor sampleName = some sampleEntry2
    ∧ sampleEntry2.schema = some sampleSchema
    ∧ sampleSchema.op_name = sampleName
    ∧ sampleEntry2.def_count ≤ sampleEntry2.def_and_impl_count
    ∧ 1 < sampleEntry2.def_count
    ∧ (((sampleDispatcher2.registerImpl sampleName2 (some DispatchKey.CPU)
          sampleKernel none "cpu kernel").1.1 = [])
      ∧ (∀ evs, (sampleDispatcher2.deregisterImpl_ sampleName2
            (some DispatchKey.CPU) 0).1 = Except.ok evs → evs = [])
      ∧ (∀ r, (sampleDispatcher2.registerDef sampleSchema).1 = Except.ok r →
          r.1 = [])
      ∧ (sampleDispatcher2.deregisterDef_ sampleName).1 = Except.ok []) :=
  ⟨by decide, by decide, by decide, by decide, by decide, by decide, by decide,
   by decide,
   C9_impl_activity_invisible_to_listeners sampleDispatcher2 sampleName2
     sampleName (some DispatchKey.CPU) sampleKernel none "cpu kernel" 0
     sampleSchema sampleSchema sampleEntry2 sampleEntry2 (by decide) (by decide)
     (by decide) (by decide) (by decide) (by decide) (by decide) (by decide)⟩

end c10
